import Mathlib

/-!
Verification of the JSON rendering and path-navigation core of the
`anita` repository (module `anita/jj.py`): the dense renderer `dumps`,
the free path resolver `jpath`, and the `Accessor` facade.

Values are shallowly embedded as the inductive `JVal`; text is embedded
as `List Char`.  Python exceptions become `Except` / tagged results:
the tags record the shape of the exception message, as noted at each
definition.  Python's `str.isdigit` is modelled as the ASCII digit test
(all text appearing in the repository is ASCII).
-/

/-! ## Text helpers -/

/-- Decimal digit to its character, `0 ↦ '0'` … `9 ↦ '9'`. -/
def digitChar (d : Fin 10) : Char := Char.ofNat (48 + d.val)

/-- Worker for `natToChars`: peels decimal digits into an accumulator,
with a structural fuel so that the definition reduces definitionally
(the fuel is never exhausted when it exceeds the number). -/
def natToCharsGo : Nat → Nat → List Char → List Char
  | 0, _, acc => acc
  | fuel + 1, n, acc =>
    if h : n < 10 then digitChar ⟨n, h⟩ :: acc
    else natToCharsGo fuel (n / 10) (digitChar ⟨n % 10, Nat.mod_lt _ (by norm_num)⟩ :: acc)

/-- Decimal rendering of a natural number, most significant digit first;
models Python's `repr` of a non-negative `int`. -/
def natToChars (n : Nat) : List Char := natToCharsGo (n + 1) n []

/-- Decimal rendering of an integer; models Python's `repr` of an `int`. -/
def intToChars (i : Int) : List Char :=
  if i < 0 then '-' :: natToChars i.natAbs else natToChars i.natAbs

/-- Numeric value of a list of decimal digit characters;
models Python's `int(step)` on a string of ASCII digits. -/
def digitsToNat (s : List Char) : Nat :=
  s.foldl (fun n c => 10 * n + (c.toNat - 48)) 0

/-- Join a list of character lists with a separator; models Python's
`sep.join(items)`. -/
def sepJoin (sep : List Char) : List (List Char) → List Char
  | [] => []
  | [s] => s
  | s :: ss => s ++ sep ++ sepJoin sep ss

/-- Lowercase hexadecimal digit character for a value below 16. -/
def hexDigitChar (n : Nat) : Char :=
  if n < 10 then Char.ofNat (48 + n) else Char.ofNat (87 + n)

/-- Four lowercase hex digits of a code unit below `0x10000`. -/
def hex4 (n : Nat) : List Char :=
  [hexDigitChar (n / 4096 % 16), hexDigitChar (n / 256 % 16),
   hexDigitChar (n / 16 % 16), hexDigitChar (n % 16)]

/-- A `\uXXXX` escape sequence. -/
def uEscape (n : Nat) : List Char := '\\' :: 'u' :: hex4 n

/-- Escaping of one character inside a JSON string literal as performed by
Python's `json.dumps` with its default `ensure_ascii=True`: the seven
shortcut escapes, printable ASCII kept literal, anything else as
`\uXXXX` (a surrogate pair for code points above `0xFFFF`). -/
def escapeChar (c : Char) : List Char :=
  if c = '"' then ['\\', '"']
  else if c = '\\' then ['\\', '\\']
  else if c = '\x08' then ['\\', 'b']
  else if c = '\x0c' then ['\\', 'f']
  else if c = '\n' then ['\\', 'n']
  else if c = '\r' then ['\\', 'r']
  else if c = '\t' then ['\\', 't']
  else if 0x20 ≤ c.toNat ∧ c.toNat ≤ 0x7e then [c]
  else if c.toNat < 0x10000 then uEscape c.toNat
  else uEscape (0xd800 + (c.toNat - 0x10000) / 0x400) ++
       uEscape (0xdc00 + (c.toNat - 0x10000) % 0x400)

/-- A quoted, escaped JSON string literal, as emitted by `json.dumps`. -/
def stringLit (s : List Char) : List Char :=
  '"' :: s.flatMap escapeChar ++ ['"']

/-! ## Data model

A Python value as far as `anita/jj.py` observes one: scalars
(`None`, `bool`, `int`, `float`, `str`), the renders-as-text scalars
(`datetime`, `date`, `Decimal`, each carried as its `str()` form),
containers (`list`, `tuple`, `set`, `dict`), and `jobj cls`, an
instance of an unsupported class named `cls`.  A `float` is carried in
positional decimal notation (sign, integer part, fraction digits), the
form Python's `repr` gives every float that needs no exponent; a
well-formed float has at least one fraction digit. -/

inductive JVal where
  | jnull
  | jbool (b : Bool)
  | jint (n : Int)
  | jfloat (neg : Bool) (ip : Nat) (frac : List (Fin 10))
  | jstr (s : List Char)
  | jdatetime (s : List Char)
  | jdate (s : List Char)
  | jdecimal (s : List Char)
  | jlist (xs : List JVal)
  | jtuple (xs : List JVal)
  | jset (xs : List JVal)
  | jdict (kvs : List (List Char × JVal))
  | jobj (cls : List Char)
deriving Repr

open JVal

/-- Name of the Python class of a value, as `type(x).__name__` yields it. -/
def pyTypeName : JVal → List Char
  | jnull => "NoneType".data
  | jbool _ => "bool".data
  | jint _ => "int".data
  | jfloat _ _ _ => "float".data
  | jstr _ => "str".data
  | jdatetime _ => "datetime".data
  | jdate _ => "date".data
  | jdecimal _ => "Decimal".data
  | jlist _ => "list".data
  | jtuple _ => "tuple".data
  | jset _ => "set".data
  | jdict _ => "dict".data
  | jobj cls => cls

/-- Truth of `isinstance(x, list)`. -/
def JVal.isList : JVal → Bool
  | jlist _ => true
  | _ => false

/-- Truth of `isinstance(x, str)`. -/
def JVal.isStr : JVal → Bool
  | jstr _ => true
  | _ => false

/-- Truth of `isinstance(x, dict)`. -/
def JVal.isDict : JVal → Bool
  | jdict _ => true
  | _ => false

/-- Truth of `isinstance(x, (dict, list, set, tuple))`. -/
def JVal.isContainer : JVal → Bool
  | jlist _ => true
  | jtuple _ => true
  | jset _ => true
  | jdict _ => true
  | _ => false

/-! ## The renderer `dumps` (jj.py lines 9-75) -/

/-- Error raised while rendering.  Both forms are Python `TypeError`s;
the tag records the message shape: `typeName cls` is
`TypeError(x.__class__.__name__)` from `_is_atomic` (jj.py line 46),
`unsupported cls` is `TypeError(f"Unsupported type: -class 'cls'-")`
from the final branch of `_j` (jj.py line 73). -/
inductive DErr where
  | typeName (cls : List Char)
  | unsupported (cls : List Char)
deriving Repr, DecidableEq

/-- Classifier `_is_atomic` (jj.py lines 40-47): `None` is atomic, the four
container types are not, an unrecognised type raises `TypeError` with the
bare class name, everything else (int, float, str, datetime, date,
Decimal — bool being a subclass of int) is atomic. -/
def _is_atomic : JVal → Except DErr Bool
  | jnull => .ok true
  | jdict _ => .ok false
  | jlist _ => .ok false
  | jset _ => .ok false
  | jtuple _ => .ok false
  | jbool _ => .ok true
  | jint _ => .ok true
  | jfloat _ _ _ => .ok true
  | jstr _ => .ok true
  | jdatetime _ => .ok true
  | jdate _ => .ok true
  | jdecimal _ => .ok true
  | jobj cls => .error (.typeName cls)

/-- Lazy `all(_is_atomic(v) for v in o)`: stops at the first non-atomic
child; a child of unsupported type before that point raises. -/
def allAtomic : List JVal → Except DErr Bool
  | [] => .ok true
  | v :: vs =>
    match _is_atomic v with
    | .error e => .error e
    | .ok true => allAtomic vs
    | .ok false => .ok false

/-- Classifier `_is_compound_of_atomic` (jj.py lines 49-54). -/
def _is_compound_of_atomic : JVal → Except DErr Bool
  | jlist xs => allAtomic xs
  | jset xs => allAtomic xs
  | jtuple xs => allAtomic xs
  | jdict kvs => allAtomic (kvs.map (·.2))
  | _ => .ok false

/-- Classifier `_is_oneliner` (jj.py lines 56-57), with Python's
short-circuiting `or`. -/
def _is_oneliner (x : JVal) : Except DErr Bool :=
  match _is_atomic x with
  | .error e => .error e
  | .ok true => .ok true
  | .ok false => _is_compound_of_atomic x

/-- Conversion of a set or tuple to a list (jj.py lines 63-64). -/
def setTupleToList : JVal → JVal
  | jset xs => jlist xs
  | jtuple xs => jlist xs
  | x => x

/-- Positional decimal rendering of a float, e.g. `-12.05`. -/
def floatToChars (neg : Bool) (ip : Nat) (frac : List (Fin 10)) : List Char :=
  (if neg then ['-'] else []) ++ natToChars ip ++ '.' :: frac.map digitChar

mutual
/-- One-line rendering by Python's `json.dumps(x, default=str)`
(jj.py line 66): standard JSON literals with separators `", "` and
`": "`, tuples serialized as arrays, datetime/date/Decimal going
through `default=str` into quoted strings.  `_j` only ever applies this
to values whose children are all atomic, after converting a set or
tuple at the top into a list, so the `jset` and `jobj` cases below are
unreachable from `_j` (`json.dumps` would fall back to `default=str`
there, whose result for `jobj` depends on the memory address); they are
rendered here as an array and as the quoted class name respectively. -/
def json_dumps : JVal → List Char
  | jnull => "null".data
  | jbool true => "true".data
  | jbool false => "false".data
  | jint n => intToChars n
  | jfloat neg ip frac => floatToChars neg ip frac
  | jstr s => stringLit s
  | jdatetime s => stringLit s
  | jdate s => stringLit s
  | jdecimal s => stringLit s
  | jlist xs => '[' :: sepJoin [',', ' '] (json_dumpsElems xs) ++ [']']
  | jtuple xs => '[' :: sepJoin [',', ' '] (json_dumpsElems xs) ++ [']']
  | jset xs => '[' :: sepJoin [',', ' '] (json_dumpsElems xs) ++ [']']
  | jdict kvs => '\x7b' :: sepJoin [',', ' '] (json_dumpsItems kvs) ++ ['\x7d']
  | jobj cls => stringLit cls

/-- Renderings of the elements of a list, in order. -/
def json_dumpsElems : List JVal → List (List Char)
  | [] => []
  | v :: vs => json_dumps v :: json_dumpsElems vs

/-- Renderings `"key": value` of the items of a dict, in order. -/
def json_dumpsItems : List (List Char × JVal) → List (List Char)
  | [] => []
  | (k, v) :: kvs => (stringLit k ++ ':' :: ' ' :: json_dumps v) :: json_dumpsItems kvs
end

mutual
/-- Layout recursion `_j` (jj.py lines 59-73).  A oneliner value is
rendered by `json.dumps` after set/tuple conversion; otherwise a dict
renders as `cond -lbrace- newline, items joined by ",\n", newline,
indent -rbrace-` with each item `next_ "key": childRender` (the key
interpolated raw by the f-string, unescaped), and a list, set or tuple
renders analogously with brackets, each element rendered with
`is_element = False`.  Any other value would raise
`TypeError(f"Unsupported type: ...")`. -/
def _j (x : JVal) (indent : List Char) (is_element : Bool) : Except DErr (List Char) :=
  let next_ := indent ++ [' ', ' ', ' ', ' ']
  let cond := if is_element then [] else indent
  match _is_oneliner x with
  | .error e => .error e
  | .ok true => .ok (cond ++ json_dumps (setTupleToList x))
  | .ok false =>
    match x with
    | jdict kvs =>
      match _jItems kvs next_ with
      | .error e => .error e
      | .ok items =>
        .ok (cond ++ '\x7b' :: '\n' :: sepJoin [',', '\n'] items ++
             '\n' :: indent ++ ['\x7d'])
    | jlist xs =>
      match _jElems xs next_ with
      | .error e => .error e
      | .ok elems =>
        .ok (cond ++ '[' :: '\n' :: sepJoin [',', '\n'] elems ++
             '\n' :: indent ++ [']'])
    | jset xs =>
      match _jElems xs next_ with
      | .error e => .error e
      | .ok elems =>
        .ok (cond ++ '[' :: '\n' :: sepJoin [',', '\n'] elems ++
             '\n' :: indent ++ [']'])
    | jtuple xs =>
      match _jElems xs next_ with
      | .error e => .error e
      | .ok elems =>
        .ok (cond ++ '[' :: '\n' :: sepJoin [',', '\n'] elems ++
             '\n' :: indent ++ [']'])
    | y => .error (.unsupported (pyTypeName y))

/-- Rendered elements `_j(v, next_, False)` of a multi-line list. -/
def _jElems (xs : List JVal) (next_ : List Char) : Except DErr (List (List Char)) :=
  match xs with
  | [] => .ok []
  | v :: vs =>
    match _j v next_ false with
    | .error e => .error e
    | .ok s =>
      match _jElems vs next_ with
      | .error e => .error e
      | .ok ss => .ok (s :: ss)

/-- Rendered items `f'-next_-"-k-": -_j(v, next_, True)-'` of a
multi-line dict: the key is interpolated raw, without escaping. -/
def _jItems (kvs : List (List Char × JVal)) (next_ : List Char) :
    Except DErr (List (List Char)) :=
  match kvs with
  | [] => .ok []
  | (k, v) :: rest =>
    match _j v next_ true with
    | .error e => .error e
    | .ok s =>
      match _jItems rest next_ with
      | .error e => .error e
      | .ok ss => .ok ((next_ ++ '"' :: k ++ '"' :: ':' :: ' ' :: s) :: ss)
end

/-- Entry point `dumps` (jj.py line 75): `_j(x)` with default arguments
`indent=""`, `is_element=False`. -/
def dumps (x : JVal) : Except DErr String := (_j x [] false).map String.mk

/-! ## The free path resolver `jpath` (jj.py lines 78-112) -/

/-- Payload of the `ValueError` raised on a failed walk:
`Invalid path '-rem-' for remaining object -obj-`, carrying the
unresolved remainder and the cursor value at the failure. -/
structure PErr where
  rem : List Char
  obj : JVal
deriving Repr

/-- Split on `'/'`, as Python's `path.split("/")`: the empty text yields
one empty segment, and separators at the ends yield empty segments. -/
def splitSlash : List Char → List (List Char)
  | [] => [[]]
  | c :: rest =>
    if c = '/' then [] :: splitSlash rest
    else
      match splitSlash rest with
      | s :: ss => (c :: s) :: ss
      | [] => [[c]]

/-- Rejoin segments with `'/'`, as Python's `"/".join(steps)`. -/
def joinSlash (segs : List (List Char)) : List Char := sepJoin ['/'] segs

/-- Truth of Python's `step.isdigit()`, modelled over ASCII: non-empty
and all decimal digits. -/
def isDigitSeg (s : List Char) : Bool := !s.isEmpty && s.all Char.isDigit

/-- First value bound to a key in a dict's items (Python dict keys are
unique, so first = only). -/
def lookupKey : List (List Char × JVal) → List Char → Option JVal
  | [], _ => none
  | (k2, v) :: rest, k => if k2 = k then some v else lookupKey rest k

/-- Python subscript `o[step]` with a string subscript: a dict lookup
(absent key: `KeyError`); on a list, tuple or str the subscript raises
`TypeError`, as it does on a non-subscriptable scalar.  `none` stands
for the raised exception. -/
def pyGetItemStr : JVal → List Char → Option JVal
  | jdict kvs, k => lookupKey kvs k
  | _, _ => none

/-- Python subscript `o[i]` with a non-negative int subscript, for the
two types the resolvers apply it to: a list yields its `i`-th element, a
str yields its `i`-th character as a one-character str (out of range:
`IndexError`); anything else raises `TypeError`. -/
def pyGetItemIdx : JVal → Nat → Option JVal
  | jlist xs, i => xs.get? i
  | jstr cs, i => (cs.get? i).map (fun c => jstr [c])
  | _, _ => none

/-- One step of the free resolver's walk (jj.py line 109):
`o[int(step)] if step.isdigit() and isinstance(o, list) else o[step]`. -/
def jstep (o : JVal) (s : List Char) : Option JVal :=
  if isDigitSeg s && o.isList then pyGetItemIdx o (digitsToNat s) else pyGetItemStr o s

/-- The walk of jj.py lines 107-112: segments are consumed left to
right; the first failing subscript raises `ValueError` carrying the
remaining segments rejoined with `/` and the cursor standing at the
failure. -/
def jpathGo : JVal → List (List Char) → Except PErr JVal
  | o, [] => .ok o
  | o, s :: rest =>
    match jstep o s with
    | some o2 => jpathGo o2 rest
    | none => .error ⟨joinSlash (s :: rest), o⟩

/-- Entry point `jpath` (jj.py lines 78-112). -/
def jpath (o : JVal) (path : List Char) : Except PErr JVal :=
  jpathGo o (splitSlash path)

/-! ## The `Accessor` facade (jj.py lines 115-189) -/

/-- Constructor guard (jj.py lines 145-147): a root that is neither a
list nor a dict raises `TypeError` with the message
`Accessor: expected list or dict, got '-type name-'`; otherwise the
root is retained as the accessor's state `self.j`. -/
def Accessor.init (j : JVal) : Except (List Char) JVal :=
  if j.isList || j.isDict then .ok j
  else .error ("Accessor: expected list or dict, got '".data ++ pyTypeName j ++ ['\''])

/-- Result of `Accessor.__getattr__`: a value, an `AttributeError`
carrying the attribute name (jj.py line 164), a `TypeError` from
subscripting a list with a string (jj.py line 163 with a list root), or
a `KeyError` from a dict subscript with an absent key (impossible after
the membership test, kept for totality). -/
inductive AttrRes where
  | val (v : JVal)
  | attrError (name : List Char)
  | typeError
  | keyError
deriving Repr

/-- Truth of Python's `__name in self.j` for the two root types the
constructor admits: key membership on a dict, element membership on a
list (a string equals a list element exactly when that element is an
equal str). -/
def pyContains (j : JVal) (name : List Char) : Bool :=
  match j with
  | jdict kvs => kvs.any (fun kv => decide (kv.1 = name))
  | jlist xs => xs.any (fun v => match v with | jstr s => decide (s = name) | _ => false)
  | _ => false

/-- Attribute-style read `Accessor.__getattr__` (jj.py lines 149-164):
if `__name in self.j` then `self.j[__name]` — a dict lookup, or a
`TypeError` when `self.j` is a list — else `AttributeError(__name)`. -/
def Accessor.getattr (j : JVal) (name : List Char) : AttrRes :=
  if pyContains j name then
    match j with
    | jdict kvs =>
      match lookupKey kvs name with
      | some v => .val v
      | none => .keyError
    | _ => .typeError
  else .attrError name

/-- One step of the accessor resolver's walk (jj.py line 186):
`o[int(step)] if step.isdigit() and isinstance(o, (list, str)) else o[step]` —
the only difference from the free resolver's step is that a digit
segment also indexes into a str cursor. -/
def accStep (o : JVal) (s : List Char) : Option JVal :=
  if isDigitSeg s && (o.isList || o.isStr) then pyGetItemIdx o (digitsToNat s)
  else pyGetItemStr o s

/-- The walk of jj.py lines 181-189, identical to `jpathGo` but for the
step function. -/
def Accessor.jpathGo : JVal → List (List Char) → Except PErr JVal
  | o, [] => .ok o
  | o, s :: rest =>
    match accStep o s with
    | some o2 => Accessor.jpathGo o2 rest
    | none => .error ⟨joinSlash (s :: rest), o⟩

/-- Method `Accessor.jpath` (jj.py lines 166-189), walking from the
retained root `self.j`. -/
def Accessor.jpath (j : JVal) (path : List Char) : Except PErr JVal :=
  Accessor.jpathGo j (splitSlash path)

/-! ## Reference walk

Auxiliary vocabulary for the claims about failure reporting: the cursor
reached after successfully consuming a prefix of the segments. -/

/-- Cursor after consuming the given segments, `none` if a step fails. -/
def walkCursor : JVal → List (List Char) → Option JVal
  | o, [] => some o
  | o, s :: rest =>
    match jstep o s with
    | some o2 => walkCursor o2 rest
    | none => none

/-- Holds when, along the accessor resolver's walk, no str cursor ever
meets a digit segment (the only situation where the two resolvers'
steps differ). -/
def noStrDigit : JVal → List (List Char) → Bool
  | _, [] => true
  | o, s :: rest =>
    !(o.isStr && isDigitSeg s) &&
      (match accStep o s with
       | some o2 => noStrDigit o2 rest
       | none => true)

/-! ## Claim C3 -/

/-- Example value of claim C3. -/
def c3ex : JVal :=
  jdict [("a".data, jint 1), ("b".data, jlist [jint 2, jint 3]),
         ("c".data, jdict [("d".data, jint 4)])]

/-- Claim C3, counterexample: `dumps` does not return the text the claim
spells out — that text is missing the newline and indent between the
opening brace and `"a"`. -/
theorem c3_counterexample :
    dumps c3ex ≠ .ok "\x7b\"a\": 1,\n    \"b\": [2, 3],\n    \"c\": \x7b\"d\": 4\x7d\n\x7d" := by
  rw [show dumps c3ex =
      .ok "\x7b\n    \"a\": 1,\n    \"b\": [2, 3],\n    \"c\": \x7b\"d\": 4\x7d\n\x7d" from rfl]
  intro h
  exact absurd (Except.ok.inj h) (by decide)

/-- Claim C3 (amended): `dumps` applied to the mapping
`-"a": 1, "b": [2, 3], "c": -"d": 4--` returns exactly the text
`-\n    "a": 1,\n    "b": [2, 3],\n    "c": -"d": 4-\n-` (braces elided
in this comment), i.e. the claimed text with the newline and 4-space
indent the layout inserts after the opening brace. -/
theorem c3_render_scenario :
    dumps c3ex = .ok "\x7b\n    \"a\": 1,\n    \"b\": [2, 3],\n    \"c\": \x7b\"d\": 4\x7d\n\x7d" :=
  rfl

/-! ## Claim C4 -/

/-- Claim C4: during `jpath`'s walk a digit segment is used as a
sequence index exactly when the cursor is a list; in every other case
the segment is used as a mapping key, and a key lookup on a list cursor
fails rather than coercing.  The last conjunct ties the step function
to the walk itself. -/
theorem c4_numeric_disambiguation :
    ∀ (o : JVal) (s : List Char) (rest : List (List Char)),
      (isDigitSeg s = true → o.isList = true →
        jstep o s = pyGetItemIdx o (digitsToNat s)) ∧
      (isDigitSeg s = true → o.isList = false → jstep o s = pyGetItemStr o s) ∧
      (isDigitSeg s = false → jstep o s = pyGetItemStr o s) ∧
      (o.isList = true → pyGetItemStr o s = none) ∧
      (jpathGo o (s :: rest) =
        match jstep o s with
        | some o2 => jpathGo o2 rest
        | none => .error ⟨joinSlash (s :: rest), o⟩) := by
  intro o s rest
  refine ⟨fun h1 h2 => ?_, fun h1 h2 => ?_, fun h1 => ?_, fun h => ?_, rfl⟩
  · simp [jstep, h1, h2]
  · simp [jstep, h1, h2]
  · simp [jstep, h1]
  · cases o <;> simp_all [JVal.isList, pyGetItemStr]

/-- Claim C4, witness: a digit segment over a list indexes (yielding the
second element), the same digit segment over a dict is a key lookup,
and a key lookup on a list fails even when the list contains that
string. -/
theorem c4_witness :
    jstep (jlist [jint 7, jint 8]) ['1'] = some (jint 8) ∧
    jstep (jdict [(['1'], jint 9)]) ['1'] = some (jint 9) ∧
    pyGetItemStr (jlist [jstr ['a']]) ['a'] = none := by
  refine ⟨?_, ?_, ?_⟩
  · exact ((c4_numeric_disambiguation (jlist [jint 7, jint 8]) ['1'] []).1 rfl rfl).trans rfl
  · exact ((c4_numeric_disambiguation (jdict [(['1'], jint 9)]) ['1'] []).2.1 rfl rfl).trans rfl
  · exact (c4_numeric_disambiguation (jlist [jstr ['a']]) ['a'] []).2.2.2.1 rfl

/-! ## Claim C7 -/

/-- Claim C7: the Accessor constructor accepts every list and dict root
and rejects everything else with a Type error whose message names the
offending type. -/
theorem c7_accessor_guard :
    ∀ j : JVal,
      ((j.isList || j.isDict) = true → Accessor.init j = .ok j) ∧
      ((j.isList || j.isDict) = false →
        Accessor.init j =
          .error ("Accessor: expected list or dict, got '".data ++ pyTypeName j ++ ['\''])) := by
  intro j
  constructor <;> intro h <;> simp [Accessor.init, h]

/-- Claim C7, witness: the integer 17 is rejected naming `int`, and a
list root and a dict root are accepted. -/
theorem c7_witness :
    Accessor.init (jint 17) = .error "Accessor: expected list or dict, got 'int'".data ∧
    Accessor.init (jlist [jint 1]) = .ok (jlist [jint 1]) ∧
    Accessor.init (jdict []) = .ok (jdict []) := by
  refine ⟨?_, ?_, ?_⟩
  · exact ((c7_accessor_guard (jint 17)).2 rfl).trans rfl
  · exact (c7_accessor_guard (jlist [jint 1])).1 rfl
  · exact (c7_accessor_guard (jdict [])).1 rfl

/-! ## Claim C8 -/

/-- Dict root under which the empty path resolves successfully. -/
def c8root : JVal := jdict [([], jint 42)]

/-- Claim C8, counterexample: the empty path does split into a single
empty segment, but over the root `-"": 42-` it does not fail — the
empty segment is looked up as a key and found. -/
theorem c8_counterexample :
    splitSlash [] = [[]] ∧ jpath c8root [] = .ok (jint 42) := ⟨rfl, rfl⟩

/-- Claim C8 (amended): the empty path splits into a single empty
segment, and resolving it fails for every root on which the subscript
`o[""]` fails — i.e. every root except a dict containing the empty
string as a key; the failure carries the empty remainder and the root
itself. -/
theorem c8_empty_path :
    ∀ root : JVal,
      splitSlash [] = [[]] ∧
      (pyGetItemStr root [] = none → jpath root [] = .error ⟨[], root⟩) := by
  intro root
  refine ⟨rfl, fun h => ?_⟩
  simp [jpath, splitSlash, jpathGo, jstep, isDigitSeg, h, joinSlash, sepJoin]

/-- Claim C8, witness: the empty path fails on the scalar root `0` and
on a list root. -/
theorem c8_witness :
    jpath (jint 0) [] = .error ⟨[], jint 0⟩ ∧
    jpath (jlist [jint 1]) [] = .error ⟨[], jlist [jint 1]⟩ :=
  ⟨(c8_empty_path (jint 0)).2 rfl, (c8_empty_path (jlist [jint 1])).2 rfl⟩

/-! ## Claim C5 -/

/-- Claim C5: whenever the free resolver's walk fails, the error carries
exactly the segments from the failing index onward, rejoined with `/`,
and exactly the cursor the walk was standing on at that index. -/
theorem c5_error_remainder :
    ∀ (segs : List (List Char)) (root : JVal) (e : PErr),
      jpathGo root segs = .error e →
      ∃ i : Fin segs.length, ∃ c : JVal,
        walkCursor root (segs.take i.val) = some c ∧
        jstep c (segs.get i) = none ∧
        e.rem = joinSlash (segs.drop i.val) ∧ e.obj = c := by
  intro segs
  induction segs with
  | nil => intro root e h; simp [jpathGo] at h
  | cons s rest ih =>
    intro root e h
    cases hs : jstep root s with
    | some o2 =>
      have h2 : jpathGo o2 rest = .error e := by
        rw [jpathGo, hs] at h; exact h
      obtain ⟨i, c, hc, hstep, hrem, hobj⟩ := ih o2 e h2
      refine ⟨⟨i.val + 1, Nat.succ_lt_succ i.isLt⟩, c, ?_, ?_, ?_, hobj⟩
      · simpa [walkCursor, hs] using hc
      · simpa using hstep
      · simpa using hrem
    | none =>
      have he : PErr.mk (joinSlash (s :: rest)) root = e := by
        rw [jpathGo, hs] at h
        exact Except.error.inj h
      subst he
      exact ⟨⟨0, Nat.succ_pos _⟩, root, rfl, hs, rfl, rfl⟩

/-- Root value for the C5 witness. -/
def c5root : JVal := jdict [("data".data, jlist [jdict [("name".data, jstr "Alice".data)]])]

/-- Claim C5, witness: the walk of `data/2/name` over the witness root
fails, and the theorem locates the failing index with remainder
`2/name` and the list cursor. -/
theorem c5_witness :
    ∃ i : Fin (splitSlash "data/2/name".data).length, ∃ c : JVal,
      walkCursor c5root ((splitSlash "data/2/name".data).take i.val) = some c ∧
      jstep c ((splitSlash "data/2/name".data).get i) = none ∧
      ("2/name".data : List Char) = joinSlash ((splitSlash "data/2/name".data).drop i.val) ∧
      (jlist [jdict [("name".data, jstr "Alice".data)]] : JVal) = c :=
  c5_error_remainder (splitSlash "data/2/name".data) c5root
    ⟨"2/name".data, jlist [jdict [("name".data, jstr "Alice".data)]]⟩ rfl

/-! ## Claim C6 -/

/-- Claim C6: the accessor resolver's step indexes a str cursor by
position on a digit segment, where the free resolver's step fails; and
whenever no str cursor meets a digit segment along the walk, the two
resolvers agree on the result, error payloads included. -/
theorem c6_resolver_asymmetry :
    (∀ (cs s : List Char), isDigitSeg s = true →
      accStep (jstr cs) s = (cs.get? (digitsToNat s)).map (fun c => jstr [c])) ∧
    (∀ (cs s : List Char), isDigitSeg s = true → jstep (jstr cs) s = none) ∧
    (∀ (segs : List (List Char)) (root : JVal), noStrDigit root segs = true →
      jpathGo root segs = Accessor.jpathGo root segs) := by
  refine ⟨fun cs s h => ?_, fun cs s h => ?_, ?_⟩
  · simp [accStep, h, JVal.isList, JVal.isStr, pyGetItemIdx]
  · simp [jstep, h, JVal.isList, pyGetItemStr]
  · intro segs
    induction segs with
    | nil => intro root _; rfl
    | cons s rest ih =>
      intro root h
      rw [noStrDigit, Bool.and_eq_true] at h
      have hstep : jstep root s = accStep root s := by
        by_cases hd : isDigitSeg s = true
        · have hstr : root.isStr = false := by
            rcases h with ⟨h1, _⟩
            cases hr : root.isStr
            · rfl
            · rw [hr, hd] at h1; simp at h1
          cases hroot : root <;> simp_all [jstep, accStep, JVal.isList, JVal.isStr]
        · have hd' : isDigitSeg s = false := by
            cases hdd : isDigitSeg s
            · rfl
            · exact absurd hdd hd
          simp [jstep, accStep, hd']
      cases hs : accStep root s with
      | some o2 =>
        have hcont : noStrDigit o2 rest = true := by
          rcases h with ⟨_, h2⟩
          rw [hs] at h2
          exact h2
        rw [jpathGo, Accessor.jpathGo, hstep, hs]
        exact ih o2 hcont
      | none =>
        rw [jpathGo, Accessor.jpathGo, hstep, hs]

/-- Claim C6, witness: indexing `"ab"` at digit segment `1` succeeds in
the accessor resolver and fails in the free one, and on a walk that
never meets a str cursor with a digit segment the two resolvers return
the same value. -/
theorem c6_witness :
    accStep (jstr "ab".data) ['1'] = some (jstr ['b']) ∧
    jstep (jstr "ab".data) ['1'] = none ∧
    jpathGo (jdict [("a".data, jlist [jint 5])]) ["a".data, ['0']] =
      Accessor.jpathGo (jdict [("a".data, jlist [jint 5])]) ["a".data, ['0']] := by
  refine ⟨?_, ?_, ?_⟩
  · exact (c6_resolver_asymmetry.1 "ab".data ['1'] rfl).trans rfl
  · exact c6_resolver_asymmetry.2.1 "ab".data ['1'] rfl
  · exact c6_resolver_asymmetry.2.2 ["a".data, ['0']] (jdict [("a".data, jlist [jint 5])]) rfl

/-! ## Claim C9 -/

/-- Looking a key up fails exactly when no item bears it. -/
theorem lookupKey_none_iff (kvs : List (List Char × JVal)) (name : List Char) :
    lookupKey kvs name = none ↔ kvs.any (fun kv => decide (kv.1 = name)) = false := by
  induction kvs with
  | nil => simp [lookupKey]
  | cons kv rest ih =>
    obtain ⟨k, v⟩ := kv
    by_cases hk : k = name
    · have e1 : lookupKey ((k, v) :: rest) name = some v := by simp [lookupKey, hk]
      have e2 : ((k, v) :: rest).any (fun kv => decide (kv.1 = name)) = true := by
        simp [hk]
      rw [e1, e2]
      simp
    · have e1 : lookupKey ((k, v) :: rest) name = lookupKey rest name := by
        simp [lookupKey, hk]
      have e2 : ((k, v) :: rest).any (fun kv => decide (kv.1 = name)) =
          rest.any (fun kv => decide (kv.1 = name)) := by
        simp [hk]
      rw [e1, e2]
      exact ih

/-- Claim C9: attribute-style reads honour the attribute-error contract
only on dict roots — present key yields the value, absent key an
AttributeError — while on a list root containing the name as an
element, the membership test passes and the string subscript then
raises a TypeError, not an AttributeError. -/
theorem c9_getattr_contract :
    (∀ (kvs : List (List Char × JVal)) (name : List Char) (v : JVal),
      lookupKey kvs name = some v → Accessor.getattr (jdict kvs) name = .val v) ∧
    (∀ (kvs : List (List Char × JVal)) (name : List Char),
      lookupKey kvs name = none → Accessor.getattr (jdict kvs) name = .attrError name) ∧
    (∀ (xs : List JVal) (name : List Char), jstr name ∈ xs →
      Accessor.getattr (jlist xs) name = .typeError) := by
  refine ⟨fun kvs name v h => ?_, fun kvs name h => ?_, fun xs name h => ?_⟩
  · have hc : pyContains (jdict kvs) name = true := by
      cases hcc : kvs.any (fun kv => decide (kv.1 = name)) with
      | false => rw [(lookupKey_none_iff kvs name).mpr hcc] at h; exact absurd h (by simp)
      | true => exact hcc
    simp [Accessor.getattr, hc, h]
  · have hc : pyContains (jdict kvs) name = false := (lookupKey_none_iff kvs name).mp h
    simp [Accessor.getattr, hc]
  · have hc : pyContains (jlist xs) name = true := by
      simp only [pyContains, List.any_eq_true]
      exact ⟨jstr name, h, by simp⟩
    simp [Accessor.getattr, hc]

/-- Claim C9, witness: present key, absent key, and the list-root
TypeError, each at a concrete input. -/
theorem c9_witness :
    Accessor.getattr (jdict [("a".data, jint 1)]) "a".data = .val (jint 1) ∧
    Accessor.getattr (jdict [("a".data, jint 1)]) "z".data = .attrError "z".data ∧
    Accessor.getattr (jlist [jstr "a".data]) "a".data = .typeError := by
  refine ⟨?_, ?_, ?_⟩
  · exact c9_getattr_contract.1 [("a".data, jint 1)] "a".data (jint 1) rfl
  · exact c9_getattr_contract.2.1 [("a".data, jint 1)] "z".data rfl
  · exact c9_getattr_contract.2.2 [jstr "a".data] "a".data (by simp)

/-! ## Claim C2 -/

/-- Immediate children of a value: elements of a list, set or tuple,
values of a dict, nothing for scalars. -/
def children : JVal → List JVal
  | jlist xs => xs
  | jtuple xs => xs
  | jset xs => xs
  | jdict kvs => kvs.map (·.2)
  | _ => []

/-- Digit characters are decimal digits. -/
theorem digitChar_isDigit : ∀ d : Fin 10, (digitChar d).isDigit = true := by decide

/-- Every character the decimal worker emits is a digit or came from the
accumulator. -/
theorem natToCharsGo_digits :
    ∀ (fuel n : Nat) (acc : List Char), (∀ c ∈ acc, c.isDigit = true) →
      ∀ c ∈ natToCharsGo fuel n acc, c.isDigit = true := by
  intro fuel
  induction fuel with
  | zero => intro n acc hacc c hc; exact hacc c hc
  | succ fuel ih =>
    intro n acc hacc c hc
    rw [natToCharsGo] at hc
    split at hc
    · rcases List.mem_cons.mp hc with h | h
      · subst h; exact digitChar_isDigit _
      · exact hacc c h
    · refine ih (n / 10) _ ?_ c hc
      intro c2 hc2
      rcases List.mem_cons.mp hc2 with h | h
      · subst h; exact digitChar_isDigit _
      · exact hacc c2 h

/-- Every character of a rendered natural number is a digit. -/
theorem natToChars_digits (n : Nat) : ∀ c ∈ natToChars n, c.isDigit = true :=
  natToCharsGo_digits (n + 1) n [] (by simp)

/-- Membership in a joined list comes from the separator or a part. -/
theorem mem_sepJoin :
    ∀ (sep : List Char) (parts : List (List Char)) (c : Char),
      c ∈ sepJoin sep parts → c ∈ sep ∨ ∃ p ∈ parts, c ∈ p := by
  intro sep parts
  induction parts with
  | nil => intro c hc; simp [sepJoin] at hc
  | cons p rest ih =>
    intro c hc
    cases rest with
    | nil =>
      right
      exact ⟨p, by simp, hc⟩
    | cons q rest2 =>
      have hdef : sepJoin sep (p :: q :: rest2) = p ++ sep ++ sepJoin sep (q :: rest2) := rfl
      rw [hdef] at hc
      rcases List.mem_append.mp hc with hc | hc
      · rcases List.mem_append.mp hc with hc | hc
        · right; exact ⟨p, by simp, hc⟩
        · left; exact hc
      · rcases ih c hc with hc | ⟨r, hr, hcr⟩
        · left; exact hc
        · right; exact ⟨r, List.mem_cons_of_mem _ hr, hcr⟩

/-- Hexadecimal digit characters below 16 are never a newline. -/
theorem hexDigitChar_ne_nl : ∀ n : Nat, n < 16 → hexDigitChar n ≠ '\n' := by decide

/-- A `\uXXXX` escape never contains a raw newline. -/
theorem nl_not_mem_uEscape : ∀ n : Nat, '\n' ∉ uEscape n := by
  intro n hc
  rw [uEscape, hex4] at hc
  have h4096 : n / 4096 % 16 < 16 := Nat.mod_lt _ (by norm_num)
  have h256 : n / 256 % 16 < 16 := Nat.mod_lt _ (by norm_num)
  have h16 : n / 16 % 16 < 16 := Nat.mod_lt _ (by norm_num)
  have h1 : n % 16 < 16 := Nat.mod_lt _ (by norm_num)
  simp only [List.mem_cons, List.not_mem_nil, or_false] at hc
  rcases hc with hc | hc | hc | hc | hc | hc
  · exact absurd hc (by decide)
  · exact absurd hc (by decide)
  · exact hexDigitChar_ne_nl _ h4096 hc.symm
  · exact hexDigitChar_ne_nl _ h256 hc.symm
  · exact hexDigitChar_ne_nl _ h16 hc.symm
  · exact hexDigitChar_ne_nl _ h1 hc.symm

/-- The escaping of any character never emits a raw newline. -/
theorem nl_not_mem_escapeChar : ∀ a : Char, '\n' ∉ escapeChar a := by
  intro a hc
  rw [escapeChar] at hc
  split_ifs at hc with h1 h2 h3 h4 h5 h6 h7 h8 h9
  · exact absurd hc (by decide)
  · exact absurd hc (by decide)
  · exact absurd hc (by decide)
  · exact absurd hc (by decide)
  · exact absurd hc (by decide)
  · exact absurd hc (by decide)
  · exact absurd hc (by decide)
  · have hca : a = '\n' := by
      have := List.mem_singleton.mp hc
      exact this.symm
    rw [hca] at h8
    exact absurd h8.1 (by decide)
  · exact nl_not_mem_uEscape _ hc
  · rcases List.mem_append.mp hc with hc | hc
    · exact nl_not_mem_uEscape _ hc
    · exact nl_not_mem_uEscape _ hc

/-- Rendered natural numbers contain no newline. -/
theorem nl_not_mem_natToChars (n : Nat) : '\n' ∉ natToChars n := by
  intro h
  exact absurd (natToChars_digits n _ h) (by decide)

/-- Rendered integers contain no newline. -/
theorem nl_not_mem_intToChars (i : Int) : '\n' ∉ intToChars i := by
  intro h
  rw [intToChars] at h
  split_ifs at h
  · rcases List.mem_cons.mp h with h | h
    · exact absurd h (by decide)
    · exact nl_not_mem_natToChars _ h
  · exact nl_not_mem_natToChars _ h

/-- Rendered floats contain no newline. -/
theorem nl_not_mem_floatToChars (neg : Bool) (ip : Nat) (frac : List (Fin 10)) :
    '\n' ∉ floatToChars neg ip frac := by
  intro h
  rw [floatToChars] at h
  have hdig : ∀ d : Fin 10, digitChar d ≠ '\n' := by decide
  rcases List.mem_append.mp h with h | h
  · rcases List.mem_append.mp h with h | h
    · cases neg <;> simp at h
    · exact nl_not_mem_natToChars _ h
  · rcases List.mem_cons.mp h with h | h
    · exact absurd h (by decide)
    · obtain ⟨d, _, hd⟩ := List.mem_map.mp h
      exact hdig d hd

/-- String literals emitted by `json.dumps` contain no newline. -/
theorem nl_not_mem_stringLit (s : List Char) : '\n' ∉ stringLit s := by
  intro h
  rw [stringLit] at h
  rcases List.mem_cons.mp h with h | h
  · exact absurd h (by decide)
  · rcases List.mem_append.mp h with h | h
    · obtain ⟨a, _, ha⟩ := List.mem_flatMap.mp h
      exact nl_not_mem_escapeChar a ha
    · exact absurd h (by decide)

/-- One-line renderings by `json.dumps` contain no newline: the layout
engine's collapsed form really is a single line. -/
theorem nl_not_mem_json_dumps : ∀ v : JVal, '\n' ∉ json_dumps v := by
  intro v
  refine json_dumps.induct (fun v => '\n' ∉ json_dumps v)
    (fun kvs => ∀ s ∈ json_dumpsItems kvs, '\n' ∉ s)
    (fun xs => ∀ s ∈ json_dumpsElems xs, '\n' ∉ s)
    ?_ ?_ ?_ ?_ ?_ ?_ ?_ ?_ ?_ ?_ ?_ ?_ ?_ ?_ ?_ ?_ ?_ ?_ v
  · decide
  · decide
  · decide
  · exact fun n => nl_not_mem_intToChars n
  · exact fun neg ip frac => nl_not_mem_floatToChars neg ip frac
  · exact fun s => nl_not_mem_stringLit s
  · exact fun s => nl_not_mem_stringLit s
  · exact fun s => nl_not_mem_stringLit s
  · exact fun s => nl_not_mem_stringLit s
  · intro xs ih h
    rw [json_dumps] at h
    rcases List.mem_cons.mp h with h | h
    · exact absurd h (by decide)
    · rcases List.mem_append.mp h with h | h
      · rcases mem_sepJoin _ _ _ h with h | ⟨p, hp, hcp⟩
        · exact absurd h (by decide)
        · exact ih p hp hcp
      · exact absurd h (by decide)
  · intro xs ih h
    rw [json_dumps] at h
    rcases List.mem_cons.mp h with h | h
    · exact absurd h (by decide)
    · rcases List.mem_append.mp h with h | h
      · rcases mem_sepJoin _ _ _ h with h | ⟨p, hp, hcp⟩
        · exact absurd h (by decide)
        · exact ih p hp hcp
      · exact absurd h (by decide)
  · intro xs ih h
    rw [json_dumps] at h
    rcases List.mem_cons.mp h with h | h
    · exact absurd h (by decide)
    · rcases List.mem_append.mp h with h | h
      · rcases mem_sepJoin _ _ _ h with h | ⟨p, hp, hcp⟩
        · exact absurd h (by decide)
        · exact ih p hp hcp
      · exact absurd h (by decide)
  · intro kvs ih h
    rw [json_dumps] at h
    rcases List.mem_cons.mp h with h | h
    · exact absurd h (by decide)
    · rcases List.mem_append.mp h with h | h
      · rcases mem_sepJoin _ _ _ h with h | ⟨p, hp, hcp⟩
        · exact absurd h (by decide)
        · exact ih p hp hcp
      · exact absurd h (by decide)
  · exact fun cls => nl_not_mem_stringLit cls
  · intro s hs
    simp [json_dumpsElems] at hs
  · intro v vs ihv ihvs s hs
    rw [json_dumpsElems] at hs
    rcases List.mem_cons.mp hs with hs | hs
    · subst hs; exact ihv
    · exact ihvs s hs
  · intro s hs
    simp [json_dumpsItems] at hs
  · intro k v kvs ihv ihkvs s hs
    rw [json_dumpsItems] at hs
    rcases List.mem_cons.mp hs with hs | hs
    · subst hs
      intro h
      rcases List.mem_append.mp h with h | h
      · exact nl_not_mem_stringLit k h
      · rcases List.mem_cons.mp h with h | h
        · exact absurd h (by decide)
        · rcases List.mem_cons.mp h with h | h
          · exact absurd h (by decide)
          · exact ihv h
    · exact ihkvs s hs

/-- Unfolding of `_j` on a oneliner value. -/
theorem _j_oneliner (x : JVal) (ind : List Char) (el : Bool)
    (h : _is_oneliner x = .ok true) :
    _j x ind el = .ok ((if el then [] else ind) ++ json_dumps (setTupleToList x)) := by
  cases x <;> simp only [_j, h]

/-- Unfolding of `_j` on an expandable dict whose items rendered. -/
theorem _j_dict_expand (kvs : List (List Char × JVal)) (ind : List Char) (el : Bool)
    (ho : _is_oneliner (jdict kvs) = .ok false) (items : List (List Char))
    (hi : _jItems kvs (ind ++ [' ', ' ', ' ', ' ']) = .ok items) :
    _j (jdict kvs) ind el =
      .ok ((if el then [] else ind) ++ '\x7b' :: '\n' :: sepJoin [',', '\n'] items ++
           '\n' :: ind ++ ['\x7d']) := by
  rw [_j, ho, hi]

/-- Unfolding of `_j` on an expandable list whose elements rendered. -/
theorem _j_list_expand (xs : List JVal) (ind : List Char) (el : Bool)
    (ho : _is_oneliner (jlist xs) = .ok false) (elems : List (List Char))
    (he : _jElems xs (ind ++ [' ', ' ', ' ', ' ']) = .ok elems) :
    _j (jlist xs) ind el =
      .ok ((if el then [] else ind) ++ '[' :: '\n' :: sepJoin [',', '\n'] elems ++
           '\n' :: ind ++ [']']) := by
  rw [_j, ho, he]

/-- Unfolding of `_j` on an expandable set whose elements rendered. -/
theorem _j_set_expand (xs : List JVal) (ind : List Char) (el : Bool)
    (ho : _is_oneliner (jset xs) = .ok false) (elems : List (List Char))
    (he : _jElems xs (ind ++ [' ', ' ', ' ', ' ']) = .ok elems) :
    _j (jset xs) ind el =
      .ok ((if el then [] else ind) ++ '[' :: '\n' :: sepJoin [',', '\n'] elems ++
           '\n' :: ind ++ [']']) := by
  rw [_j, ho, he]

/-- Unfolding of `_j` on an expandable tuple whose elements rendered. -/
theorem _j_tuple_expand (xs : List JVal) (ind : List Char) (el : Bool)
    (ho : _is_oneliner (jtuple xs) = .ok false) (elems : List (List Char))
    (he : _jElems xs (ind ++ [' ', ' ', ' ', ' ']) = .ok elems) :
    _j (jtuple xs) ind el =
      .ok ((if el then [] else ind) ++ '[' :: '\n' :: sepJoin [',', '\n'] elems ++
           '\n' :: ind ++ [']']) := by
  rw [_j, ho, he]

/-- Parent value for the C2 counterexample. -/
def c2parent : JVal := jdict [("a".data, jlist [jint 2, jint 3])]

/-- Claim C2, counterexample: `-"a": [2, 3]-` is a container with a
non-atomic child (the list), that child is itself a container, yet it
renders at its place in the layout as `[2, 3]` — with no newline inside
its own brackets (nor anywhere). -/
theorem c2_counterexample :
    c2parent.isContainer = true ∧
    _is_oneliner c2parent = .ok false ∧
    jlist [jint 2, jint 3] ∈ children c2parent ∧
    (jlist [jint 2, jint 3]).isContainer = true ∧
    _j (jlist [jint 2, jint 3]) "    ".data true = .ok "[2, 3]".data ∧
    '\n' ∉ "[2, 3]".data := by
  refine ⟨rfl, rfl, ?_, rfl, rfl, by decide⟩
  exact List.mem_singleton.mpr rfl

/-- Claim C2 (amended): a container whose immediate children are all
atomic renders with no newline anywhere in its output (given an
indent prefix without newlines); and in a container with at least one
non-atomic child, each child that is itself a container *with at least
one non-atomic child of its own* renders with at least one newline —
the amendment restricts the second part to expandable children, since a
oneliner child container like `[2, 3]` collapses without newlines. -/
theorem c2_collapse_correctness :
    (∀ (x : JVal) (ind : List Char) (el : Bool) (out : List Char),
      x.isContainer = true → _is_compound_of_atomic x = .ok true →
      '\n' ∉ ind → _j x ind el = .ok out → '\n' ∉ out) ∧
    (∀ (x c : JVal) (ind : List Char) (el : Bool) (out : List Char),
      x.isContainer = true → _is_oneliner x = .ok false →
      c ∈ children x → c.isContainer = true → _is_oneliner c = .ok false →
      _j c ind el = .ok out → '\n' ∈ out) := by
  constructor
  · intro x ind el out hcont hcomp hind hj
    have hone : _is_oneliner x = .ok true := by
      cases x <;> first
        | exact Bool.noConfusion hcont
        | simp only [_is_oneliner, _is_atomic, hcomp]
    rw [_j_oneliner x ind el hone] at hj
    have hout : out = (if el then [] else ind) ++ json_dumps (setTupleToList x) :=
      (Except.ok.inj hj).symm
    subst hout
    intro hmem
    rcases List.mem_append.mp hmem with h | h
    · cases el
      · simp only [if_neg Bool.false_ne_true] at h
        exact hind h
      · simp at h
    · exact nl_not_mem_json_dumps _ h
  · intro x c ind el out hxcont hxone hcmem hccont hcone hj
    cases c <;> first
      | exact Bool.noConfusion hccont
      | skip
    case jlist xs =>
      cases he : _jElems xs (ind ++ [' ', ' ', ' ', ' ']) with
      | error e => rw [_j, hcone, he] at hj; exact absurd hj (by simp)
      | ok elems =>
        rw [_j_list_expand xs ind el hcone elems he] at hj
        have hout := (Except.ok.inj hj).symm
        subst hout
        simp
    case jtuple xs =>
      cases he : _jElems xs (ind ++ [' ', ' ', ' ', ' ']) with
      | error e => rw [_j, hcone, he] at hj; exact absurd hj (by simp)
      | ok elems =>
        rw [_j_tuple_expand xs ind el hcone elems he] at hj
        have hout := (Except.ok.inj hj).symm
        subst hout
        simp
    case jset xs =>
      cases he : _jElems xs (ind ++ [' ', ' ', ' ', ' ']) with
      | error e => rw [_j, hcone, he] at hj; exact absurd hj (by simp)
      | ok elems =>
        rw [_j_set_expand xs ind el hcone elems he] at hj
        have hout := (Except.ok.inj hj).symm
        subst hout
        simp
    case jdict kvs =>
      cases hi : _jItems kvs (ind ++ [' ', ' ', ' ', ' ']) with
      | error e => rw [_j, hcone, hi] at hj; exact absurd hj (by simp)
      | ok items =>
        rw [_j_dict_expand kvs ind el hcone items hi] at hj
        have hout := (Except.ok.inj hj).symm
        subst hout
        simp

/-- Parent value for the C2 witness. -/
def c2wparent : JVal := jdict [("e".data, jlist [jlist [jint 5]])]

/-- Claim C2, witness: an all-atomic-children list renders on one line
with no newline, and an expandable child container of an expandable
parent renders with a newline inside. -/
theorem c2_witness :
    '\n' ∉ "[1]".data ∧ '\n' ∈ "[\n        [5]\n    ]".data := by
  constructor
  · exact c2_collapse_correctness.1 (jlist [jint 1]) [] false "[1]".data rfl rfl
      (by decide) rfl
  · exact c2_collapse_correctness.2 c2wparent (jlist [jlist [jint 5]]) "    ".data true
      "[\n        [5]\n    ]".data rfl rfl (List.mem_singleton.mpr rfl) rfl rfl rfl

/-! ## Claim C10 -/

mutual
/-- Class names of all unsupported-class instances in a value. -/
def objClasses : JVal → List (List Char)
  | jobj cls => [cls]
  | jlist xs => objClassesList xs
  | jtuple xs => objClassesList xs
  | jset xs => objClassesList xs
  | jdict kvs => objClassesItems kvs
  | _ => []

/-- Class names of unsupported-class instances in a list of values. -/
def objClassesList : List JVal → List (List Char)
  | [] => []
  | v :: vs => objClasses v ++ objClassesList vs

/-- Class names of unsupported-class instances among dict values. -/
def objClassesItems : List (List Char × JVal) → List (List Char)
  | [] => []
  | (_, v) :: kvs => objClasses v ++ objClassesItems kvs
end

/-- Unsupported classes of a member contribute to the list's classes. -/
theorem objClasses_subset_list :
    ∀ (xs : List JVal) (v : JVal), v ∈ xs → ∀ cls ∈ objClasses v, cls ∈ objClassesList xs := by
  intro xs
  induction xs with
  | nil => intro v hv; simp at hv
  | cons w ws ih =>
    intro v hv cls hcls
    rw [objClassesList]
    rcases List.mem_cons.mp hv with hv | hv
    · subst hv; exact List.mem_append_left _ hcls
    · exact List.mem_append_right _ (ih v hv cls hcls)

/-- Unsupported classes of a dict value contribute to the dict's classes. -/
theorem objClasses_subset_items :
    ∀ (kvs : List (List Char × JVal)) (p : List Char × JVal), p ∈ kvs →
      ∀ cls ∈ objClasses p.2, cls ∈ objClassesItems kvs := by
  intro kvs
  induction kvs with
  | nil => intro p hp; simp at hp
  | cons q qs ih =>
    intro p hp cls hcls
    obtain ⟨qk, qv⟩ := q
    rw [objClassesItems]
    rcases List.mem_cons.mp hp with hp | hp
    · subst hp; exact List.mem_append_left _ hcls
    · exact List.mem_append_right _ (ih p hp cls hcls)

/-- The atomicity check errors only on an unsupported-class instance,
with the bare class name. -/
theorem _is_atomic_error :
    ∀ (v : JVal) (e : DErr), _is_atomic v = .error e →
      ∃ cls, e = .typeName cls ∧ v = jobj cls := by
  intro v e h
  cases v <;> simp [_is_atomic] at h
  exact ⟨_, h.symm ▸ rfl, rfl⟩

/-- The lazy all-atomic check errors only via a member's atomicity
check. -/
theorem allAtomic_error :
    ∀ (xs : List JVal) (e : DErr), allAtomic xs = .error e →
      ∃ cls, e = .typeName cls ∧ jobj cls ∈ xs := by
  intro xs
  induction xs with
  | nil => intro e h; simp [allAtomic] at h
  | cons v vs ih =>
    intro e h
    rw [allAtomic] at h
    cases ha : _is_atomic v with
    | error e2 =>
      rw [ha] at h
      obtain ⟨cls, hcls, hv⟩ := _is_atomic_error v e2 ha
      exact ⟨cls, (Except.error.inj h) ▸ hcls, by rw [← hv] at *; exact List.mem_cons_self _ _⟩
    | ok b =>
      rw [ha] at h
      cases b with
      | true =>
        obtain ⟨cls, hcls, hmem⟩ := ih e h
        exact ⟨cls, hcls, List.mem_cons_of_mem _ hmem⟩
      | false => exact absurd h (by simp)

/-- The oneliner classifier errors only with a bare class name of an
unsupported-class instance inside the value. -/
theorem _is_oneliner_error :
    ∀ (x : JVal) (e : DErr), _is_oneliner x = .error e →
      ∃ cls, e = .typeName cls ∧ cls ∈ objClasses x := by
  intro x e h
  rw [_is_oneliner] at h
  cases ha : _is_atomic x with
  | error e2 =>
    rw [ha] at h
    obtain ⟨cls, hcls, hv⟩ := _is_atomic_error x e2 ha
    refine ⟨cls, (Except.error.inj h) ▸ hcls, ?_⟩
    subst hv
    simp [objClasses]
  | ok b =>
    rw [ha] at h
    cases b with
    | true => exact absurd h (by simp)
    | false =>
      cases x <;> simp only [_is_compound_of_atomic] at h <;>
        first
        | exact absurd h (by simp)
        | skip
      case jlist xs =>
        obtain ⟨cls, hcls, hmem⟩ := allAtomic_error _ _ h
        exact ⟨cls, hcls, objClasses_subset_list xs _ hmem cls (by simp [objClasses])⟩
      case jtuple xs =>
        obtain ⟨cls, hcls, hmem⟩ := allAtomic_error _ _ h
        exact ⟨cls, hcls, objClasses_subset_list xs _ hmem cls (by simp [objClasses])⟩
      case jset xs =>
        obtain ⟨cls, hcls, hmem⟩ := allAtomic_error _ _ h
        exact ⟨cls, hcls, objClasses_subset_list xs _ hmem cls (by simp [objClasses])⟩
      case jdict kvs =>
        obtain ⟨cls, hcls, hmem⟩ := allAtomic_error _ _ h
        obtain ⟨p, hp, hpv⟩ := List.mem_map.mp hmem
        refine ⟨cls, hcls, objClasses_subset_items kvs p hp cls ?_⟩
        rw [hpv]
        simp [objClasses]

/-- Unfolding of `_j` when classification raises. -/
theorem _j_oneliner_error (x : JVal) (ind : List Char) (el : Bool) (e : DErr)
    (h : _is_oneliner x = .error e) : _j x ind el = .error e := by
  cases x <;> simp only [_j, h]

/-- A failing element rendering pins the error on some element. -/
theorem _jElems_error :
    ∀ (xs : List JVal) (next : List Char) (e : DErr),
      (∀ v ∈ xs, ∀ (ind : List Char) (el : Bool) (e2 : DErr), _j v ind el = .error e2 →
        ∃ cls, e2 = .typeName cls ∧ cls ∈ objClasses v) →
      _jElems xs next = .error e →
      ∃ cls, e = .typeName cls ∧ ∃ v ∈ xs, cls ∈ objClasses v := by
  intro xs
  induction xs with
  | nil => intro next e _ h; simp [_jElems] at h
  | cons v vs ih =>
    intro next e hih h
    rw [_jElems] at h
    cases hj : _j v next false with
    | error e2 =>
      rw [hj] at h
      obtain ⟨cls, hcls, hmem⟩ := hih v (List.mem_cons_self _ _) next false e2 hj
      exact ⟨cls, (Except.error.inj h) ▸ hcls, v, List.mem_cons_self _ _, hmem⟩
    | ok s =>
      rw [hj] at h
      cases hr : _jElems vs next with
      | error e2 =>
        rw [hr] at h
        obtain ⟨cls, hcls, w, hw, hmem⟩ :=
          ih next e2 (fun u hu => hih u (List.mem_cons_of_mem _ hu)) hr
        exact ⟨cls, (Except.error.inj h) ▸ hcls, w, List.mem_cons_of_mem _ hw, hmem⟩
      | ok ss => rw [hr] at h; exact absurd h (by simp)

/-- A failing item rendering pins the error on some dict value. -/
theorem _jItems_error :
    ∀ (kvs : List (List Char × JVal)) (next : List Char) (e : DErr),
      (∀ p ∈ kvs, ∀ (ind : List Char) (el : Bool) (e2 : DErr), _j p.2 ind el = .error e2 →
        ∃ cls, e2 = .typeName cls ∧ cls ∈ objClasses p.2) →
      _jItems kvs next = .error e →
      ∃ cls, e = .typeName cls ∧ ∃ p ∈ kvs, cls ∈ objClasses p.2 := by
  intro kvs
  induction kvs with
  | nil => intro next e _ h; simp [_jItems] at h
  | cons q qs ih =>
    intro next e hih h
    obtain ⟨qk, qv⟩ := q
    rw [_jItems] at h
    cases hj : _j qv next true with
    | error e2 =>
      rw [hj] at h
      obtain ⟨cls, hcls, hmem⟩ := hih (qk, qv) (List.mem_cons_self _ _) next true e2 hj
      exact ⟨cls, (Except.error.inj h) ▸ hcls, (qk, qv), List.mem_cons_self _ _, hmem⟩
    | ok s =>
      rw [hj] at h
      cases hr : _jItems qs next with
      | error e2 =>
        rw [hr] at h
        obtain ⟨cls, hcls, w, hw, hmem⟩ :=
          ih next e2 (fun u hu => hih u (List.mem_cons_of_mem _ hu)) hr
        exact ⟨cls, (Except.error.inj h) ▸ hcls, w, List.mem_cons_of_mem _ hw, hmem⟩
      | ok ss => rw [hr] at h; exact absurd h (by simp)

/-- Every error the layout recursion raises is the bare class name of
an unsupported-class instance occurring in the value — the
`Unsupported type` branch never fires. -/
theorem _j_error_bound :
    ∀ (n : Nat) (x : JVal), sizeOf x ≤ n →
      ∀ (ind : List Char) (el : Bool) (e : DErr), _j x ind el = .error e →
        ∃ cls, e = .typeName cls ∧ cls ∈ objClasses x := by
  intro n
  induction n with
  | zero =>
    intro x hx
    exact absurd hx (by cases x <;> simp_arith)
  | succ n ih =>
    intro x hx ind el e h
    cases ho : _is_oneliner x with
    | error e2 =>
      rw [_j_oneliner_error x ind el e2 ho] at h
      exact (Except.error.inj h) ▸ _is_oneliner_error x e2 ho
    | ok b =>
      cases b with
      | true => rw [_j_oneliner x ind el ho] at h; exact absurd h (by simp)
      | false =>
        cases x <;>
          first
          | exact Bool.noConfusion (Except.ok.inj ho)
          | exact Except.noConfusion ho
          | skip
        case jlist xs =>
          cases he : _jElems xs (ind ++ [' ', ' ', ' ', ' ']) with
          | error e2 =>
            rw [_j, ho, he] at h
            obtain ⟨cls, hcls, v, hv, hmem⟩ := _jElems_error xs _ e2
              (fun v hv ind2 el2 e3 hj => by
                refine ih v ?_ ind2 el2 e3 hj
                have hlt : sizeOf v < sizeOf (jlist xs) := by
                  have := List.sizeOf_lt_of_mem hv
                  simp only [JVal.jlist.sizeOf_spec]
                  omega
                omega) he
            exact ⟨cls, (Except.error.inj h) ▸ hcls,
              objClasses_subset_list xs v hv cls hmem⟩
          | ok elems =>
            rw [_j_list_expand xs ind el ho elems he] at h
            exact absurd h (by simp)
        case jtuple xs =>
          cases he : _jElems xs (ind ++ [' ', ' ', ' ', ' ']) with
          | error e2 =>
            rw [_j, ho, he] at h
            obtain ⟨cls, hcls, v, hv, hmem⟩ := _jElems_error xs _ e2
              (fun v hv ind2 el2 e3 hj => by
                refine ih v ?_ ind2 el2 e3 hj
                have hlt : sizeOf v < sizeOf (jtuple xs) := by
                  have := List.sizeOf_lt_of_mem hv
                  simp only [JVal.jtuple.sizeOf_spec]
                  omega
                omega) he
            exact ⟨cls, (Except.error.inj h) ▸ hcls,
              objClasses_subset_list xs v hv cls hmem⟩
          | ok elems =>
            rw [_j_tuple_expand xs ind el ho elems he] at h
            exact absurd h (by simp)
        case jset xs =>
          cases he : _jElems xs (ind ++ [' ', ' ', ' ', ' ']) with
          | error e2 =>
            rw [_j, ho, he] at h
            obtain ⟨cls, hcls, v, hv, hmem⟩ := _jElems_error xs _ e2
              (fun v hv ind2 el2 e3 hj => by
                refine ih v ?_ ind2 el2 e3 hj
                have hlt : sizeOf v < sizeOf (jset xs) := by
                  have := List.sizeOf_lt_of_mem hv
                  simp only [JVal.jset.sizeOf_spec]
                  omega
                omega) he
            exact ⟨cls, (Except.error.inj h) ▸ hcls,
              objClasses_subset_list xs v hv cls hmem⟩
          | ok elems =>
            rw [_j_set_expand xs ind el ho elems he] at h
            exact absurd h (by simp)
        case jdict kvs =>
          cases hi : _jItems kvs (ind ++ [' ', ' ', ' ', ' ']) with
          | error e2 =>
            rw [_j, ho, hi] at h
            obtain ⟨cls, hcls, p, hp, hmem⟩ := _jItems_error kvs _ e2
              (fun p hp ind2 el2 e3 hj => by
                refine ih p.2 ?_ ind2 el2 e3 hj
                have hlt : sizeOf p.2 < sizeOf (jdict kvs) := by
                  have h1 := List.sizeOf_lt_of_mem hp
                  obtain ⟨pk, pv⟩ := p
                  simp only [JVal.jdict.sizeOf_spec] at *
                  simp only [Prod.mk.sizeOf_spec] at h1
                  omega
                omega) hi
            exact ⟨cls, (Except.error.inj h) ▸ hcls,
              objClasses_subset_items kvs p hp cls hmem⟩
          | ok items =>
            rw [_j_dict_expand kvs ind el ho items hi] at h
            exact absurd h (by simp)

/-- Claim C10: the final `Unsupported type` branch of the layout
recursion is unreachable — every failure of `dumps` raises the bare
class name of an unsupported-class instance occurring in the input. -/
theorem c10_bare_class_name :
    ∀ (x : JVal) (e : DErr), dumps x = .error e →
      ∃ cls, e = .typeName cls ∧ cls ∈ objClasses x := by
  intro x e h
  have h2 : _j x [] false = .error e := by
    rw [dumps] at h
    cases hj : _j x [] false with
    | error e2 =>
      rw [hj] at h
      have he : e2 = e := by simpa [Except.map] using h
      rw [he]
    | ok s =>
      rw [hj] at h
      simp [Except.map] at h
  exact _j_error_bound (sizeOf x) x (le_refl _) [] false e h2

/-- Claim C10, witness: a dict holding an instance of `CustomClass`
fails with exactly that bare class name. -/
theorem c10_witness :
    ∃ cls, DErr.typeName "CustomClass".data = .typeName cls ∧
      cls ∈ objClasses (jdict [("a".data, jobj "CustomClass".data)]) :=
  c10_bare_class_name (jdict [("a".data, jobj "CustomClass".data)])
    (.typeName "CustomClass".data) rfl

/-! ## A standard JSON parser

Recursive-descent reader for JSON text (RFC 8259 values without
exponent parts, which the renderer never emits: objects, arrays,
strings with the full escape repertoire including surrogate pairs,
integers, fraction numbers, and the three keyword literals).  The
recursion is fuelled; the entry point supplies fuel exceeding the input
length, which the round-trip proof shows is always sufficient. -/

/-- JSON insignificant whitespace. -/
def isWs (c : Char) : Bool := c = ' ' || c = '\t' || c = '\n' || c = '\r'

/-- Drop leading whitespace. -/
def skipWs : List Char → List Char
  | [] => []
  | c :: cs => if isWs c then skipWs cs else c :: cs

/-- Value of one hexadecimal digit character, either case. -/
def hexVal (c : Char) : Option Nat :=
  if 48 ≤ c.toNat ∧ c.toNat ≤ 57 then some (c.toNat - 48)
  else if 97 ≤ c.toNat ∧ c.toNat ≤ 102 then some (c.toNat - 87)
  else if 65 ≤ c.toNat ∧ c.toNat ≤ 70 then some (c.toNat - 55)
  else none

/-- Read four hexadecimal digits into a code unit. -/
def readHex4 : List Char → Option (Nat × List Char)
  | h1 :: h2 :: h3 :: h4 :: rest =>
    match hexVal h1, hexVal h2, hexVal h3, hexVal h4 with
    | some a1, some a2, some a3, some a4 =>
      some (((a1 * 16 + a2) * 16 + a3) * 16 + a4, rest)
    | _, _, _, _ => none
  | _ => none

/-- Decode the payload of a `\u` escape (the input begins after the
`\u`): one code unit, or a surrogate pair recombined into one code
point; a lone surrogate is rejected. -/
def parseU (cs : List Char) : Option (Char × List Char) :=
  match readHex4 cs with
  | none => none
  | some (n, cs3) =>
    if 0xd800 ≤ n ∧ n < 0xdc00 then
      match cs3 with
      | c1 :: c2 :: cs3' =>
        if c1 = '\\' ∧ c2 = 'u' then
          match readHex4 cs3' with
          | some (m, cs4) =>
            if 0xdc00 ≤ m ∧ m < 0xe000 then
              some (Char.ofNat (0x10000 + (n - 0xd800) * 0x400 + (m - 0xdc00)), cs4)
            else none
          | none => none
        else none
      | _ => none
    else if 0xdc00 ≤ n ∧ n < 0xe000 then none
    else some (Char.ofNat n, cs3)

/-- Decode one string-body character: a backslash escape (shortcut or
`\u`), or a literal character other than the closing quote and raw
control characters. -/
def unescapeOne : List Char → Option (Char × List Char)
  | [] => none
  | c :: cs =>
    if c = '"' then none
    else if c = '\\' then
      match cs with
      | [] => none
      | e :: cs2 =>
        if e = '"' then some ('"', cs2)
        else if e = '\\' then some ('\\', cs2)
        else if e = '/' then some ('/', cs2)
        else if e = 'b' then some ('\x08', cs2)
        else if e = 'f' then some ('\x0c', cs2)
        else if e = 'n' then some ('\n', cs2)
        else if e = 'r' then some ('\r', cs2)
        else if e = 't' then some ('\t', cs2)
        else if e = 'u' then parseU cs2
        else none
    else if c.toNat < 0x20 then none
    else some (c, cs)

/-- Body of a string literal after the opening quote: decodes
characters up to the closing quote and returns the content and the
remainder after that quote.  The recursion is fuelled; each decoded
character consumes at least one input character, so fuel exceeding the
input length never runs out. -/
def parseStringBody : Nat → List Char → Option (List Char × List Char)
  | 0, _ => none
  | fuel + 1, cs =>
    match cs with
    | [] => none
    | c :: cs1 =>
      if c = '"' then some ([], cs1)
      else
        match unescapeOne (c :: cs1) with
        | some (ch, rest) =>
          match parseStringBody fuel rest with
          | some (b, r) => some (ch :: b, r)
          | none => none
        | none => none

/-- Digit character to a decimal digit, defaulting for non-digits. -/
def charToFin10 (c : Char) : Fin 10 :=
  if h : c.toNat - 48 < 10 then ⟨c.toNat - 48, h⟩ else ⟨0, by omega⟩

/-- Apply the numeric sign read before an unsigned number. -/
def negVal : JVal → JVal
  | jint n => jint (-n)
  | jfloat _ ip frac => jfloat true ip frac
  | v => v

/-- Unsigned JSON number: one or more digits, optionally a fraction
point with one or more digits; exponent parts are not accepted (the
renderer never produces them). -/
def parseUNumber (cs : List Char) : Option (JVal × List Char) :=
  let ds := cs.takeWhile Char.isDigit
  let rest := cs.dropWhile Char.isDigit
  if ds.isEmpty then none
  else
    match rest with
    | c :: cs3 =>
      if c = '.' then
        let fs := cs3.takeWhile Char.isDigit
        let rest2 := cs3.dropWhile Char.isDigit
        if fs.isEmpty then none
        else some (jfloat false (digitsToNat ds) (fs.map charToFin10), rest2)
      else some (jint (digitsToNat ds), c :: cs3)
    | [] => some (jint (digitsToNat ds), [])

/-- JSON number with optional leading minus. -/
def parseNumber (cs : List Char) : Option (JVal × List Char) :=
  match cs with
  | c :: r =>
    if c = '-' then
      match parseUNumber r with
      | some (u, rest) => some (negVal u, rest)
      | none => none
    else parseUNumber (c :: r)
  | [] => none

mutual
/-- One JSON value, leading whitespace allowed; returns the value and
the unconsumed remainder. -/
def parseValue : Nat → List Char → Option (JVal × List Char)
  | 0, _ => none
  | fuel + 1, cs =>
    match skipWs cs with
    | [] => none
    | c :: cs' =>
      if c = 'n' then
        match cs' with
        | c1 :: c2 :: c3 :: r =>
          if c1 = 'u' ∧ c2 = 'l' ∧ c3 = 'l' then some (jnull, r) else none
        | _ => none
      else if c = 't' then
        match cs' with
        | c1 :: c2 :: c3 :: r =>
          if c1 = 'r' ∧ c2 = 'u' ∧ c3 = 'e' then some (jbool true, r) else none
        | _ => none
      else if c = 'f' then
        match cs' with
        | c1 :: c2 :: c3 :: c4 :: r =>
          if c1 = 'a' ∧ c2 = 'l' ∧ c3 = 's' ∧ c4 = 'e' then some (jbool false, r) else none
        | _ => none
      else if c = '"' then
        match parseStringBody (cs'.length + 1) cs' with
        | some (s, r) => some (jstr s, r)
        | none => none
      else if c = '[' then
        match skipWs cs' with
        | c2 :: r => if c2 = ']' then some (jlist [], r) else parseElems fuel cs'
        | [] => parseElems fuel cs'
      else if c = '\x7b' then
        match skipWs cs' with
        | c2 :: r => if c2 = '\x7d' then some (jdict [], r) else parseMembers fuel cs'
        | [] => parseMembers fuel cs'
      else if c = '-' ∨ c.isDigit then parseNumber (c :: cs')
      else none

/-- Non-empty comma-separated array elements up to and including the
closing bracket. -/
def parseElems : Nat → List Char → Option (JVal × List Char)
  | 0, _ => none
  | fuel + 1, cs =>
    match parseValue fuel cs with
    | none => none
    | some (v, r) =>
      match skipWs r with
      | c :: r2 =>
        if c = ',' then
          match parseElems fuel r2 with
          | some (jlist vs, r3) => some (jlist (v :: vs), r3)
          | _ => none
        else if c = ']' then some (jlist [v], r2)
        else none
      | [] => none

/-- Non-empty comma-separated object members up to and including the
closing brace. -/
def parseMembers : Nat → List Char → Option (JVal × List Char)
  | 0, _ => none
  | fuel + 1, cs =>
    match skipWs cs with
    | c0 :: cs1 =>
      if c0 = '"' then
        match parseStringBody (cs1.length + 1) cs1 with
        | none => none
        | some (k, r) =>
          match skipWs r with
          | c5 :: r2 =>
            if c5 = ':' then
              match parseValue fuel r2 with
              | none => none
              | some (v, r3) =>
                match skipWs r3 with
                | c6 :: r4 =>
                  if c6 = ',' then
                    match parseMembers fuel r4 with
                    | some (jdict kvs, r5) => some (jdict ((k, v) :: kvs), r5)
                    | _ => none
                  else if c6 = '\x7d' then some (jdict [(k, v)], r4)
                  else none
                | [] => none
            else none
          | [] => none
      else none
    | [] => none
end

/-- Parse a complete JSON text: one value with nothing but whitespace
after it.  The fuel exceeds the input length, which bounds the
recursion depth of any parse. -/
def jsonParse (cs : List Char) : Option JVal :=
  match parseValue (cs.length + 1) cs with
  | some (v, rest) => if skipWs rest = [] then some v else none
  | none => none

/-- String-level wrapper of `jsonParse`. -/
def jsonParseStr (s : String) : Option JVal := jsonParse s.data

/-! ## Decimal rendering lemmas -/

/-- The fuelled digit worker with any sufficient fuel peels the full
rendering onto the accumulator. -/
theorem natToCharsGo_eq (n : Nat) : ∀ (fuel : Nat) (acc : List Char), n < fuel →
    natToCharsGo fuel n acc = natToChars n ++ acc := by
  induction n using Nat.strong_induction_on with
  | _ n ih =>
    intro fuel acc hf
    cases fuel with
    | zero => omega
    | succ f =>
      by_cases h : n < 10
      · rw [natToCharsGo, dif_pos h, natToChars, natToCharsGo, dif_pos h]
        simp
      · have hn0 : 0 < n := by omega
        have hdiv : n / 10 < n := Nat.div_lt_self hn0 (by norm_num)
        rw [natToCharsGo, dif_neg h]
        rw [ih (n / 10) hdiv f _ (by omega)]
        conv_rhs => rw [natToChars, natToCharsGo, dif_neg h]
        rw [ih (n / 10) hdiv n _ (by omega)]
        simp

/-- Recurrence, small case. -/
theorem natToChars_lt10 {n : Nat} (h : n < 10) : natToChars n = [digitChar ⟨n, h⟩] := by
  rw [natToChars, natToCharsGo, dif_pos h]

/-- Recurrence, large case. -/
theorem natToChars_ge10 {n : Nat} (h : 10 ≤ n) :
    natToChars n =
      natToChars (n / 10) ++ [digitChar ⟨n % 10, Nat.mod_lt _ (by norm_num)⟩] := by
  rw [natToChars, natToCharsGo, dif_neg (by omega)]
  exact natToCharsGo_eq (n / 10) n _ (Nat.div_lt_self (by omega) (by norm_num))

/-- Rendered numbers are never empty. -/
theorem natToChars_ne_nil (n : Nat) : natToChars n ≠ [] := by
  by_cases h : n < 10
  · rw [natToChars_lt10 h]; simp
  · rw [natToChars_ge10 (by omega)]; simp

/-- Code point of a digit character. -/
theorem digitChar_toNat : ∀ d : Fin 10, (digitChar d).toNat = 48 + d.val := by decide

/-- Folding one more digit. -/
theorem digitsToNat_append_digit (xs : List Char) (c : Char) :
    digitsToNat (xs ++ [c]) = 10 * digitsToNat xs + (c.toNat - 48) := by
  simp [digitsToNat, List.foldl_append]

/-- Reading a rendered number recovers it. -/
theorem digitsToNat_natToChars (n : Nat) : digitsToNat (natToChars n) = n := by
  induction n using Nat.strong_induction_on with
  | _ n ih =>
    by_cases h : n < 10
    · rw [natToChars_lt10 h]
      have := digitChar_toNat ⟨n, h⟩
      simp [digitsToNat, this]
    · have hdiv : n / 10 < n := Nat.div_lt_self (by omega) (by norm_num)
      rw [natToChars_ge10 (by omega), digitsToNat_append_digit, ih (n / 10) hdiv,
        digitChar_toNat]
      simp only [Fin.val_mk]
      omega

/-- Head decomposition of a rendered number: a digit leads. -/
theorem natToChars_head (n : Nat) :
    ∃ (d : Char) (ds : List Char), natToChars n = d :: ds ∧ d.isDigit = true := by
  cases hc : natToChars n with
  | nil => exact absurd hc (natToChars_ne_nil n)
  | cons d ds =>
    refine ⟨d, ds, rfl, natToChars_digits n d ?_⟩
    rw [hc]
    exact List.mem_cons_self _ _

/-! ## Whitespace lemmas -/

/-- Leading whitespace is transparent to `skipWs`. -/
theorem skipWs_ws_append :
    ∀ (ws cs : List Char), (∀ c ∈ ws, isWs c = true) → skipWs (ws ++ cs) = skipWs cs := by
  intro ws
  induction ws with
  | nil => intro cs _; rfl
  | cons w ws2 ih =>
    intro cs hws
    have hw : isWs w = true := hws w (List.mem_cons_self _ _)
    rw [List.cons_append, skipWs, if_pos hw]
    exact ih cs (fun c hc => hws c (List.mem_cons_of_mem _ hc))

/-- A non-whitespace head stays. -/
theorem skipWs_not_ws (c : Char) (cs : List Char) (h : isWs c = false) :
    skipWs (c :: cs) = c :: cs := by
  rw [skipWs, if_neg (by simp [h])]

/-- Space characters are whitespace. -/
theorem isWs_of_space : ∀ (cs : List Char), (∀ c ∈ cs, c = ' ') → ∀ c ∈ cs, isWs c = true := by
  intro cs h c hc
  rw [h c hc]
  rfl

/-! ## String escaping round-trip lemmas -/

/-- Hex digits decode their own rendering. -/
theorem hexVal_hexDigitChar : ∀ m : Nat, m < 16 → hexVal (hexDigitChar m) = some m := by
  decide

/-- Reading back four rendered hex digits recovers the code unit. -/
theorem readHex4_hex4 (t : Nat) (cs : List Char) (h : t < 0x10000) :
    readHex4 (hex4 t ++ cs) = some (t, cs) := by
  rw [hex4]
  simp only [List.cons_append, List.nil_append]
  rw [readHex4]
  rw [hexVal_hexDigitChar _ (Nat.mod_lt _ (by norm_num)),
    hexVal_hexDigitChar _ (Nat.mod_lt _ (by norm_num)),
    hexVal_hexDigitChar _ (Nat.mod_lt _ (by norm_num)),
    hexVal_hexDigitChar _ (Nat.mod_lt _ (by norm_num))]
  have harith : ((t / 4096 % 16 * 16 + t / 256 % 16) * 16 + t / 16 % 16) * 16 + t % 16 = t := by
    omega
  simp only [harith]

/-- Decoding a rendered non-surrogate code unit. -/
theorem parseU_single (t : Nat) (cs : List Char) (hlt : t < 0x10000)
    (hval : t < 0xd800 ∨ 0xe000 ≤ t) :
    parseU (hex4 t ++ cs) = some (Char.ofNat t, cs) := by
  rw [parseU, readHex4_hex4 t cs hlt]
  dsimp only
  rw [if_neg (by omega), if_neg (by omega)]

/-- Decoding a rendered surrogate pair recovers the code point. -/
theorem parseU_pair (t : Nat) (cs : List Char) (hlo : 0x10000 ≤ t) (hhi : t < 0x110000) :
    parseU (hex4 (0xd800 + (t - 0x10000) / 0x400) ++
      '\\' :: 'u' :: (hex4 (0xdc00 + (t - 0x10000) % 0x400) ++ cs)) =
      some (Char.ofNat t, cs) := by
  have hq : (t - 0x10000) / 0x400 < 0x400 := by omega
  have hr : (t - 0x10000) % 0x400 < 0x400 := Nat.mod_lt _ (by norm_num)
  rw [parseU, readHex4_hex4 _ _ (by omega)]
  dsimp only
  rw [if_pos (by omega)]
  rw [if_pos ⟨rfl, rfl⟩]
  rw [readHex4_hex4 _ _ (by omega)]
  dsimp only
  rw [if_pos (by omega)]
  have harith : 0x10000 + (0xd800 + (t - 0x10000) / 0x400 - 0xd800) * 0x400 +
      (0xdc00 + (t - 0x10000) % 0x400 - 0xdc00) = t := by omega
  rw [harith]

/-- Decoding inverts the escaping of any single character. -/
theorem unescapeOne_escapeChar (a : Char) (cs : List Char) :
    unescapeOne (escapeChar a ++ cs) = some (a, cs) := by
  have hv : a.toNat < 55296 ∨ (57343 < a.toNat ∧ a.toNat < 1114112) := a.valid
  rw [escapeChar]
  split_ifs with h1 h2 h3 h4 h5 h6 h7 h8 h9
  · subst h1; rfl
  · subst h2; rfl
  · subst h3; rfl
  · subst h4; rfl
  · subst h5; rfl
  · subst h6; rfl
  · subst h7; rfl
  · rw [List.singleton_append, unescapeOne.eq_def]
    dsimp only
    rw [if_neg h1, if_neg h2, if_neg (by omega)]
  · rw [uEscape]
    simp only [List.cons_append]
    rw [unescapeOne.eq_def]
    dsimp only
    rw [if_neg (by decide), if_pos rfl]
    rw [if_neg (by decide), if_neg (by decide), if_neg (by decide), if_neg (by decide),
      if_neg (by decide), if_neg (by decide), if_neg (by decide), if_neg (by decide),
      if_pos rfl]
    rw [parseU_single _ _ h9 (by omega)]
    rw [Char.ofNat_toNat]
  · rw [uEscape, uEscape]
    simp only [List.append_assoc, List.cons_append, List.nil_append]
    rw [unescapeOne.eq_def]
    dsimp only
    rw [if_neg (by decide), if_pos rfl]
    rw [if_neg (by decide), if_neg (by decide), if_neg (by decide), if_neg (by decide),
      if_neg (by decide), if_neg (by decide), if_neg (by decide), if_neg (by decide),
      if_pos rfl]
    have h10 : 0x10000 ≤ a.toNat := by omega
    have h11 : a.toNat < 0x110000 := by omega
    rw [parseU_pair a.toNat cs h10 h11]
    rw [Char.ofNat_toNat]

/-- Decoding a clean literal character. -/
theorem unescapeOne_clean (c : Char) (cs : List Char) (h1 : c ≠ '"') (h2 : c ≠ '\\')
    (h3 : 32 ≤ c.toNat) :
    unescapeOne (c :: cs) = some (c, cs) := by
  rw [unescapeOne.eq_def]
  dsimp only
  rw [if_neg h1, if_neg h2, if_neg (by omega)]

/-- The escaping of a character is never empty and never starts with a
quote. -/
theorem escapeChar_head (a : Char) :
    ∃ (c : Char) (e : List Char), escapeChar a = c :: e ∧ c ≠ '"' := by
  rw [escapeChar]
  split_ifs with h1 h2 h3 h4 h5 h6 h7 h8 h9
  · exact ⟨_, _, rfl, by decide⟩
  · exact ⟨_, _, rfl, by decide⟩
  · exact ⟨_, _, rfl, by decide⟩
  · exact ⟨_, _, rfl, by decide⟩
  · exact ⟨_, _, rfl, by decide⟩
  · exact ⟨_, _, rfl, by decide⟩
  · exact ⟨_, _, rfl, by decide⟩
  · exact ⟨_, _, rfl, h1⟩
  · exact ⟨_, _, rfl, by decide⟩
  · rw [uEscape]
    simp only [List.cons_append]
    exact ⟨_, _, rfl, by decide⟩

/-- Escaping a character emits at least one character. -/
theorem escapeChar_length (a : Char) : 1 ≤ (escapeChar a).length := by
  obtain ⟨c, e, he, _⟩ := escapeChar_head a
  rw [he]
  simp

/-- Escaping never shortens a string. -/
theorem length_le_flatMap_escape (s : List Char) :
    s.length ≤ (s.flatMap escapeChar).length := by
  induction s with
  | nil => simp
  | cons c cs ih =>
    rw [List.flatMap_cons, List.length_append, List.length_cons]
    have := escapeChar_length c
    omega

/-- The string-body reader inverts the escaping of a whole string,
with any sufficient fuel. -/
theorem parseStringBody_escaped :
    ∀ (s : List Char) (fuel : Nat) (rest : List Char), s.length < fuel →
      parseStringBody fuel (s.flatMap escapeChar ++ '"' :: rest) = some (s, rest) := by
  intro s
  induction s with
  | nil =>
    intro fuel rest hf
    cases fuel with
    | zero => omega
    | succ f =>
      rw [List.flatMap_nil, List.nil_append, parseStringBody, if_pos rfl]
  | cons a s2 ih =>
    intro fuel rest hf
    cases fuel with
    | zero => omega
    | succ f =>
      obtain ⟨c, e, he, hcq⟩ := escapeChar_head a
      rw [List.flatMap_cons, List.append_assoc, he, List.cons_append]
      rw [parseStringBody, if_neg hcq]
      rw [← List.cons_append, ← he]
      rw [unescapeOne_escapeChar a (s2.flatMap escapeChar ++ '"' :: rest)]
      dsimp only
      rw [ih f rest (by simp at hf; omega)]

/-- The string-body reader accepts a raw clean key, with any
sufficient fuel. -/
theorem parseStringBody_clean :
    ∀ (k : List Char) (fuel : Nat) (rest : List Char), k.length < fuel →
      (∀ c ∈ k, c ≠ '"' ∧ c ≠ '\\' ∧ 32 ≤ c.toNat) →
      parseStringBody fuel (k ++ '"' :: rest) = some (k, rest) := by
  intro k
  induction k with
  | nil =>
    intro fuel rest hf _
    cases fuel with
    | zero => omega
    | succ f =>
      rw [List.nil_append, parseStringBody, if_pos rfl]
  | cons c k2 ih =>
    intro fuel rest hf hclean
    cases fuel with
    | zero => omega
    | succ f =>
      obtain ⟨hc1, hc2, hc3⟩ := hclean c (List.mem_cons_self _ _)
      rw [List.cons_append, parseStringBody, if_neg hc1]
      rw [unescapeOne_clean c _ hc1 hc2 hc3]
      dsimp only
      rw [ih f rest (by simp at hf; omega)
        (fun d hd => hclean d (List.mem_cons_of_mem _ hd))]


/-! ## Number parsing lemmas -/

/-- Characters that legitimately follow a rendered value inside dumps
output: a separator comma, a closing bracket or brace, or the newline
the layout inserts. -/
def stopChar (c : Char) : Bool := c = ',' || c = ']' || c = '\x7d' || c = '\n'

/-- The remainder after a rendered value is empty or starts with a stop
character. -/
def stopsB : List Char → Bool
  | [] => true
  | c :: _ => stopChar c

/-- Case split on a stop-character fact. -/
theorem stopChar_cases (c : Char) (h : stopChar c = true) :
    c = ',' ∨ c = ']' ∨ c = '\x7d' ∨ c = '\n' := by
  rw [stopChar] at h
  rcases Bool.or_eq_true_iff.mp h with h | h
  · rcases Bool.or_eq_true_iff.mp h with h | h
    · rcases Bool.or_eq_true_iff.mp h with h | h
      · exact Or.inl (of_decide_eq_true h)
      · exact Or.inr (Or.inl (of_decide_eq_true h))
    · exact Or.inr (Or.inr (Or.inl (of_decide_eq_true h)))
  · exact Or.inr (Or.inr (Or.inr (of_decide_eq_true h)))

/-- Stop characters are not digits. -/
theorem stopChar_not_digit (c : Char) (h : stopChar c = true) : c.isDigit = false := by
  rcases stopChar_cases c h with h | h | h | h <;> (subst h; decide)

/-- Stop characters are not the fraction point. -/
theorem stopChar_not_dot (c : Char) (h : stopChar c = true) : c ≠ '.' := by
  rcases stopChar_cases c h with h | h | h | h <;> (subst h; decide)

/-- Digit scanning consumes exactly a digit prefix bounded by a
non-digit head (or the end of input). -/
theorem takeWhile_digits (ds rest : List Char) (hds : ∀ c ∈ ds, c.isDigit = true)
    (hrest : rest = [] ∨ ∃ c cs, rest = c :: cs ∧ c.isDigit = false) :
    (ds ++ rest).takeWhile Char.isDigit = ds ∧
    (ds ++ rest).dropWhile Char.isDigit = rest := by
  induction ds with
  | nil =>
    simp only [List.nil_append]
    rcases hrest with h | ⟨c, cs, rfl, hc⟩
    · subst h; exact ⟨rfl, rfl⟩
    · rw [List.takeWhile_cons, List.dropWhile_cons, hc]
      exact ⟨rfl, rfl⟩
  | cons d ds2 ih =>
    have hd : d.isDigit = true := hds d (List.mem_cons_self _ _)
    obtain ⟨h1, h2⟩ := ih (fun c hc => hds c (List.mem_cons_of_mem _ hc))
    rw [List.cons_append, List.takeWhile_cons, List.dropWhile_cons, hd]
    simp only [if_pos]
    exact ⟨by rw [h1], by rw [h2]⟩

/-- A stop boundary is in particular a non-digit boundary. -/
theorem stop_boundary (rest : List Char) (h : stopsB rest = true) :
    rest = [] ∨ ∃ c cs, rest = c :: cs ∧ c.isDigit = false := by
  cases rest with
  | nil => exact Or.inl rfl
  | cons c cs => exact Or.inr ⟨c, cs, rfl, stopChar_not_digit c h⟩

/-- A digit character decodes back to its digit. -/
theorem charToFin10_digitChar : ∀ d : Fin 10, charToFin10 (digitChar d) = d := by decide

/-- A rendered fraction decodes back to its digits. -/
theorem map_charToFin10_digitChar (frac : List (Fin 10)) :
    (frac.map digitChar).map charToFin10 = frac := by
  induction frac with
  | nil => rfl
  | cons d ds ih => simp [charToFin10_digitChar, ih]

/-- A rendered number is never the empty list, as `isEmpty`. -/
theorem natToChars_isEmpty (n : Nat) : (natToChars n).isEmpty = false := by
  cases hc : natToChars n with
  | nil => exact absurd hc (natToChars_ne_nil n)
  | cons d ds => rfl

/-- The unsigned number reader inverts the natural rendering. -/
theorem parseUNumber_nat (n : Nat) (rest : List Char) (hrest : stopsB rest = true) :
    parseUNumber (natToChars n ++ rest) = some (jint n, rest) := by
  obtain ⟨htake, hdrop⟩ :=
    takeWhile_digits (natToChars n) rest (natToChars_digits n) (stop_boundary rest hrest)
  rw [parseUNumber]
  simp only [htake, hdrop]
  rw [if_neg (by rw [natToChars_isEmpty]; exact Bool.false_ne_true)]
  cases rest with
  | nil => rw [digitsToNat_natToChars]
  | cons c cs =>
    dsimp only
    rw [if_neg (stopChar_not_dot c hrest), digitsToNat_natToChars]

/-- The unsigned number reader inverts the positional float rendering. -/
theorem parseUNumber_float (ip : Nat) (frac : List (Fin 10)) (rest : List Char)
    (hfrac : frac ≠ []) (hrest : stopsB rest = true) :
    parseUNumber (natToChars ip ++ '.' :: (frac.map digitChar ++ rest)) =
      some (jfloat false ip frac, rest) := by
  obtain ⟨htake, hdrop⟩ :=
    takeWhile_digits (natToChars ip) ('.' :: (frac.map digitChar ++ rest))
      (natToChars_digits ip) (Or.inr ⟨'.', _, rfl, by decide⟩)
  have hfd : ∀ c ∈ frac.map digitChar, c.isDigit = true := by
    intro c hc
    obtain ⟨d, _, rfl⟩ := List.mem_map.mp hc
    exact digitChar_isDigit d
  obtain ⟨htake2, hdrop2⟩ :=
    takeWhile_digits (frac.map digitChar) rest hfd (stop_boundary rest hrest)
  have hfe : (frac.map digitChar).isEmpty = false := by
    cases hcf : frac with
    | nil => exact absurd hcf hfrac
    | cons d ds => rfl
  rw [parseUNumber]
  simp only [htake, hdrop]
  rw [if_neg (by rw [natToChars_isEmpty]; exact Bool.false_ne_true)]
  rw [if_pos trivial]
  simp only [htake2, hdrop2]
  rw [if_neg (by rw [hfe]; exact Bool.false_ne_true)]
  rw [digitsToNat_natToChars, map_charToFin10_digitChar]

/-- The signed number reader on input not starting with a minus. -/
theorem parseNumber_not_dash (c : Char) (cs : List Char) (h : c ≠ '-') :
    parseNumber (c :: cs) = parseUNumber (c :: cs) := by
  rw [parseNumber, if_neg h]

/-- The number reader inverts the integer rendering. -/
theorem parseNumber_int (i : Int) (rest : List Char) (hrest : stopsB rest = true) :
    parseNumber (intToChars i ++ rest) = some (jint i, rest) := by
  rw [intToChars]
  by_cases hneg : i < 0
  · rw [if_pos hneg, List.cons_append, parseNumber, if_pos rfl,
      parseUNumber_nat i.natAbs rest hrest]
    dsimp only [negVal]
    have hi : -((i.natAbs : Nat) : Int) = i := by omega
    rw [hi]
  · rw [if_neg hneg]
    obtain ⟨d, ds, hd, hdig⟩ := natToChars_head i.natAbs
    rw [hd, List.cons_append, parseNumber_not_dash d _ (by
      intro hdd
      rw [hdd] at hdig
      exact absurd hdig (by decide)), ← List.cons_append, ← hd,
      parseUNumber_nat i.natAbs rest hrest]
    have hi : ((i.natAbs : Nat) : Int) = i := by omega
    rw [hi]

/-- The number reader inverts the float rendering. -/
theorem parseNumber_float (neg : Bool) (ip : Nat) (frac : List (Fin 10)) (rest : List Char)
    (hfrac : frac ≠ []) (hrest : stopsB rest = true) :
    parseNumber (floatToChars neg ip frac ++ rest) = some (jfloat neg ip frac, rest) := by
  rw [floatToChars]
  cases neg with
  | false =>
    rw [if_neg (by decide)]
    simp only [List.nil_append, List.append_assoc, List.cons_append]
    obtain ⟨d, ds, hd, hdig⟩ := natToChars_head ip
    rw [hd, List.cons_append, parseNumber_not_dash d _ (by
      intro hdd
      rw [hdd] at hdig
      exact absurd hdig (by decide)), ← List.cons_append, ← hd,
      parseUNumber_float ip frac rest hfrac hrest]
  | true =>
    rw [if_pos rfl]
    simp only [List.append_assoc, List.cons_append, List.singleton_append]
    rw [parseNumber, if_pos rfl, List.nil_append,
      parseUNumber_float ip frac rest hfrac hrest]
    rfl

/-! ## Plain values and clean keys -/

/-- All keys pairwise distinct, as Python dict keys are. -/
def allDistinct : List (List Char) → Bool
  | [] => true
  | k :: ks => !ks.contains k && allDistinct ks

mutual
/-- A value built only from integers, floats, strings, booleans, null,
lists and string-keyed dicts — the "plain" trees of the round-trip
claim.  Floats carry at least one fraction digit (Python's repr always
prints one) and dict keys are distinct (Python dicts cannot hold
duplicates). -/
def isPlain : JVal → Bool
  | jnull => true
  | jbool _ => true
  | jint _ => true
  | jfloat _ _ frac => !frac.isEmpty
  | jstr _ => true
  | jlist xs => isPlainList xs
  | jdict kvs => isPlainItems kvs && allDistinct (kvs.map (·.1))
  | _ => false

/-- Plainness of list elements. -/
def isPlainList : List JVal → Bool
  | [] => true
  | v :: vs => isPlain v && isPlainList vs

/-- Plainness of dict values. -/
def isPlainItems : List (List Char × JVal) → Bool
  | [] => true
  | (_, v) :: kvs => isPlain v && isPlainItems kvs
end

/-- A key character that the f-string interpolation of the multi-line
layout may emit raw while remaining inside a JSON string literal: not
a quote, not a backslash, not a control character. -/
def cleanChar (c : Char) : Bool :=
  decide (c ≠ '"') && decide (c ≠ '\\') && decide (32 ≤ c.toNat)

mutual
/-- Every mapping key anywhere in the tree consists of clean
characters. -/
def keysClean : JVal → Bool
  | jlist xs => keysCleanList xs
  | jdict kvs => keysCleanItems kvs
  | _ => true

/-- Key cleanliness inside list elements. -/
def keysCleanList : List JVal → Bool
  | [] => true
  | v :: vs => keysClean v && keysCleanList vs

/-- Key cleanliness of dict items, keys and values. -/
def keysCleanItems : List (List Char × JVal) → Bool
  | [] => true
  | (k, v) :: kvs => k.all cleanChar && keysClean v && keysCleanItems kvs
end

/-- Unfold a clean key into the form the string lemmas use. -/
theorem cleanKey_spec (k : List Char) (h : k.all cleanChar = true) :
    ∀ c ∈ k, c ≠ '"' ∧ c ≠ '\\' ∧ 32 ≤ c.toNat := by
  intro c hc
  have := List.all_eq_true.mp h c hc
  rw [cleanChar] at this
  rcases Bool.and_eq_true_iff.mp this with ⟨h1, h3⟩
  rcases Bool.and_eq_true_iff.mp h1 with ⟨h1, h2⟩
  exact ⟨of_decide_eq_true h1, of_decide_eq_true h2, of_decide_eq_true h3⟩

/-- Plain values contain no set, tuple or unsupported instance, so the
set/tuple conversion is the identity on them. -/
theorem setTupleToList_plain (v : JVal) (h : isPlain v = true) : setTupleToList v = v := by
  cases v <;> first
    | rfl
    | exact Bool.noConfusion h

/-- Plain values hold no unsupported-class instances. -/
theorem objClasses_plain : ∀ v : JVal, isPlain v = true → objClasses v = [] := by
  intro v
  refine isPlain.induct (fun v => isPlain v = true → objClasses v = [])
    (fun kvs => isPlainItems kvs = true → objClassesItems kvs = [])
    (fun xs => isPlainList xs = true → objClassesList xs = [])
    ?_ ?_ ?_ ?_ ?_ ?_ ?_ ?_ ?_ ?_ ?_ ?_ v
  · intro _; rfl
  · intro _ _; rfl
  · intro _ _; rfl
  · intro _ _ _ _; rfl
  · intro _ _; rfl
  · intro xs ih h
    rw [objClasses]
    exact ih h
  · intro kvs ih h
    rw [objClasses]
    exact ih (Bool.and_eq_true_iff.mp h).1
  · intro x hn hb hi hf hs hl hd hp
    cases x <;> first
      | exact Bool.noConfusion hp
      | rfl
      | exact ((hl _) rfl).elim
      | exact ((hd _) rfl).elim
  · intro _; rfl
  · intro v vs ihv ihvs h
    obtain ⟨h1, h2⟩ := Bool.and_eq_true_iff.mp h
    rw [objClassesList, ihv h1, ihvs h2]
    rfl
  · intro _; rfl
  · intro k v kvs ihv ihkvs h
    obtain ⟨h1, h2⟩ := Bool.and_eq_true_iff.mp h
    rw [objClassesItems, ihv h1, ihkvs h2]
    rfl

/-! ## Parser fuel requirements -/

mutual
/-- Fuel sufficient for `parseValue` on the rendering of a value. -/
def needV : JVal → Nat
  | jlist xs => 1 + needL xs
  | jdict kvs => 1 + needI kvs
  | _ => 1

/-- Fuel sufficient for `parseElems` on rendered elements. -/
def needL : List JVal → Nat
  | [] => 1
  | v :: vs => 1 + max (needV v) (needL vs)

/-- Fuel sufficient for `parseMembers` on rendered items. -/
def needI : List (List Char × JVal) → Nat
  | [] => 1
  | (_, v) :: kvs => 1 + max (needV v) (needI kvs)
end

/-! ## Parsing one-line renderings -/

/-- Digits are not whitespace. -/
theorem digit_not_ws (c : Char) (h : c.isDigit = true) : isWs c = false := by
  cases hw : isWs c with
  | false => rfl
  | true =>
    exfalso
    rw [isWs] at hw
    rcases Bool.or_eq_true_iff.mp hw with hw | hw
    · rcases Bool.or_eq_true_iff.mp hw with hw | hw
      · rcases Bool.or_eq_true_iff.mp hw with hw | hw
        · rw [of_decide_eq_true hw] at h; exact Bool.noConfusion h
        · rw [of_decide_eq_true hw] at h; exact Bool.noConfusion h
      · rw [of_decide_eq_true hw] at h; exact Bool.noConfusion h
    · rw [of_decide_eq_true hw] at h; exact Bool.noConfusion h

/-- A digit is none of the parser's dispatch characters. -/
theorem digit_ne_dispatch (c : Char) (h : c.isDigit = true) :
    c ≠ 'n' ∧ c ≠ 't' ∧ c ≠ 'f' ∧ c ≠ '"' ∧ c ≠ '[' ∧ c ≠ '\x7b' ∧ c ≠ ']' ∧ c ≠ '\x7d' := by
  refine ⟨?_, ?_, ?_, ?_, ?_, ?_, ?_, ?_⟩ <;>
    (intro heq; rw [heq] at h; exact Bool.noConfusion h)

/-- Head decomposition of a one-line rendering: the first character is
never whitespace and never a closing bracket or brace. -/
theorem json_dumps_head (v : JVal) :
    ∃ (c : Char) (t : List Char), json_dumps v = c :: t ∧ isWs c = false ∧
      c ≠ ']' ∧ c ≠ '\x7d' := by
  cases v with
  | jnull => exact ⟨'n', "ull".data, rfl, by decide, by decide, by decide⟩
  | jbool b =>
    cases b with
    | true => exact ⟨'t', "rue".data, rfl, by decide, by decide, by decide⟩
    | false => exact ⟨'f', "alse".data, rfl, by decide, by decide, by decide⟩
  | jint n =>
    by_cases hneg : n < 0
    · refine ⟨'-', natToChars n.natAbs, ?_, by decide, by decide, by decide⟩
      rw [json_dumps, intToChars, if_pos hneg]
    · obtain ⟨d, ds, hd, hdig⟩ := natToChars_head n.natAbs
      obtain ⟨_, _, _, _, _, _, hne1, hne2⟩ := digit_ne_dispatch d hdig
      refine ⟨d, ds, ?_, digit_not_ws d hdig, hne1, hne2⟩
      rw [json_dumps, intToChars, if_neg hneg, hd]
  | jfloat neg ip frac =>
    cases neg with
    | true =>
      refine ⟨'-', natToChars ip ++ '.' :: frac.map digitChar, ?_, by decide, by decide,
        by decide⟩
      rw [json_dumps, floatToChars, if_pos rfl]
      rfl
    | false =>
      obtain ⟨d, ds, hd, hdig⟩ := natToChars_head ip
      obtain ⟨_, _, _, _, _, _, hne1, hne2⟩ := digit_ne_dispatch d hdig
      refine ⟨d, ds ++ '.' :: frac.map digitChar, ?_, digit_not_ws d hdig, hne1, hne2⟩
      rw [json_dumps, floatToChars, if_neg (by decide), hd]
      rfl
  | jstr s => exact ⟨'"', _, rfl, by decide, by decide, by decide⟩
  | jdatetime s => exact ⟨'"', _, rfl, by decide, by decide, by decide⟩
  | jdate s => exact ⟨'"', _, rfl, by decide, by decide, by decide⟩
  | jdecimal s => exact ⟨'"', _, rfl, by decide, by decide, by decide⟩
  | jlist xs => exact ⟨'[', _, rfl, by decide, by decide, by decide⟩
  | jtuple xs => exact ⟨'[', _, rfl, by decide, by decide, by decide⟩
  | jset xs => exact ⟨'[', _, rfl, by decide, by decide, by decide⟩
  | jdict kvs => exact ⟨'\x7b', _, rfl, by decide, by decide, by decide⟩
  | jobj cls => exact ⟨'"', _, rfl, by decide, by decide, by decide⟩

/-- Leading whitespace is transparent to the value parser. -/
theorem parseValue_ws (fuel : Nat) (ws cs : List Char) (h : ∀ c ∈ ws, isWs c = true) :
    parseValue fuel (ws ++ cs) = parseValue fuel cs := by
  cases fuel with
  | zero => rfl
  | succ f => rw [parseValue, parseValue, skipWs_ws_append ws cs h]

/-- Leading whitespace is transparent to the element parser. -/
theorem parseElems_ws (fuel : Nat) (ws cs : List Char) (h : ∀ c ∈ ws, isWs c = true) :
    parseElems fuel (ws ++ cs) = parseElems fuel cs := by
  cases fuel with
  | zero => rfl
  | succ f => rw [parseElems, parseElems, parseValue_ws f _ _ h]

/-- Leading whitespace is transparent to the member parser. -/
theorem parseMembers_ws (fuel : Nat) (ws cs : List Char) (h : ∀ c ∈ ws, isWs c = true) :
    parseMembers fuel (ws ++ cs) = parseMembers fuel cs := by
  cases fuel with
  | zero => rfl
  | succ f => rw [parseMembers, parseMembers, skipWs_ws_append ws cs h]

/-- A joined non-empty list starts with its first part. -/
theorem sepJoin_cons (sep s : List Char) (ss : List (List Char)) :
    ∃ X, sepJoin sep (s :: ss) = s ++ X := by
  cases ss with
  | nil => exact ⟨[], by simp [sepJoin]⟩
  | cons t ts =>
    exact ⟨sep ++ sepJoin sep (t :: ts),
      by rw [show sepJoin sep (s :: t :: ts) = s ++ sep ++ sepJoin sep (t :: ts) from rfl,
        List.append_assoc]⟩

/-- Head decomposition of a rendered integer: a minus sign or digit. -/
theorem intToChars_head (i : Int) :
    ∃ (c : Char) (t : List Char), intToChars i = c :: t ∧ (c = '-' ∨ c.isDigit = true) := by
  rw [intToChars]
  by_cases hneg : i < 0
  · rw [if_pos hneg]
    exact ⟨'-', _, rfl, Or.inl rfl⟩
  · rw [if_neg hneg]
    obtain ⟨d, ds, hd, hdig⟩ := natToChars_head i.natAbs
    exact ⟨d, ds, hd, Or.inr hdig⟩

/-- Head decomposition of a rendered float: a minus sign or digit. -/
theorem floatToChars_head (neg : Bool) (ip : Nat) (frac : List (Fin 10)) :
    ∃ (c : Char) (t : List Char), floatToChars neg ip frac = c :: t ∧
      (c = '-' ∨ c.isDigit = true) := by
  rw [floatToChars]
  cases neg with
  | true =>
    rw [if_pos rfl]
    exact ⟨'-', _, rfl, Or.inl rfl⟩
  | false =>
    rw [if_neg (by decide)]
    obtain ⟨d, ds, hd, hdig⟩ := natToChars_head ip
    refine ⟨d, ds ++ '.' :: frac.map digitChar, ?_, Or.inr hdig⟩
    rw [List.nil_append, hd]
    rfl

/-- A number's first character passes the parser's dispatch chain down
to the numeric branch. -/
theorem numHead_facts (c : Char) (h : c = '-' ∨ c.isDigit = true) :
    isWs c = false ∧ c ≠ 'n' ∧ c ≠ 't' ∧ c ≠ 'f' ∧ c ≠ '"' ∧ c ≠ '[' ∧ c ≠ '\x7b' := by
  rcases h with h | h
  · subst h
    exact ⟨by decide, by decide, by decide, by decide, by decide, by decide, by decide⟩
  · obtain ⟨h1, h2, h3, h4, h5, h6, _, _⟩ := digit_ne_dispatch c h
    exact ⟨digit_not_ws c h, h1, h2, h3, h4, h5, h6⟩

/-- The value parser inverts `json.dumps` on plain values, with fuel at
least the rendering's requirement; jointly, the element and member
parsers invert the rendered element and item lists. -/
theorem parseValue_json_dumps :
    ∀ v : JVal, isPlain v = true →
      ∀ (fuel : Nat) (rest : List Char), needV v ≤ fuel → stopsB rest = true →
        parseValue fuel (json_dumps v ++ rest) = some (v, rest) := by
  intro v0
  refine json_dumps.induct
    (fun v => isPlain v = true → ∀ (fuel : Nat) (rest : List Char), needV v ≤ fuel →
      stopsB rest = true → parseValue fuel (json_dumps v ++ rest) = some (v, rest))
    (fun kvs => isPlainItems kvs = true → kvs ≠ [] → ∀ (fuel : Nat) (rest : List Char),
      needI kvs ≤ fuel → stopsB rest = true →
      parseMembers fuel (sepJoin [',', ' '] (json_dumpsItems kvs) ++ '\x7d' :: rest) =
        some (jdict kvs, rest))
    (fun xs => isPlainList xs = true → xs ≠ [] → ∀ (fuel : Nat) (rest : List Char),
      needL xs ≤ fuel → stopsB rest = true →
      parseElems fuel (sepJoin [',', ' '] (json_dumpsElems xs) ++ ']' :: rest) =
        some (jlist xs, rest))
    ?_ ?_ ?_ ?_ ?_ ?_ ?_ ?_ ?_ ?_ ?_ ?_ ?_ ?_ ?_ ?_ ?_ ?_ v0
  · -- jnull
    intro _ fuel rest hfuel hstop
    cases fuel with
    | zero => exact absurd hfuel (Nat.not_succ_le_zero 0)
    | succ f =>
      rw [show json_dumps jnull ++ rest = 'n' :: 'u' :: 'l' :: 'l' :: rest from rfl,
        parseValue, skipWs_not_ws 'n' _ (by decide)]
      dsimp only
      rw [if_pos rfl, if_pos ⟨rfl, rfl, rfl⟩]
  · -- jbool true
    intro _ fuel rest hfuel hstop
    cases fuel with
    | zero => exact absurd hfuel (Nat.not_succ_le_zero 0)
    | succ f =>
      rw [show json_dumps (jbool true) ++ rest = 't' :: 'r' :: 'u' :: 'e' :: rest from rfl,
        parseValue, skipWs_not_ws 't' _ (by decide)]
      dsimp only
      rw [if_neg (by decide), if_pos rfl, if_pos ⟨rfl, rfl, rfl⟩]
  · -- jbool false
    intro _ fuel rest hfuel hstop
    cases fuel with
    | zero => exact absurd hfuel (Nat.not_succ_le_zero 0)
    | succ f =>
      rw [show json_dumps (jbool false) ++ rest = 'f' :: 'a' :: 'l' :: 's' :: 'e' :: rest
          from rfl,
        parseValue, skipWs_not_ws 'f' _ (by decide)]
      dsimp only
      rw [if_neg (by decide), if_neg (by decide), if_pos rfl, if_pos ⟨rfl, rfl, rfl, rfl⟩]
  · -- jint
    intro n _ fuel rest hfuel hstop
    cases fuel with
    | zero => exact absurd hfuel (Nat.not_succ_le_zero 0)
    | succ f =>
      obtain ⟨c, t, hct, hnum⟩ := intToChars_head n
      obtain ⟨hws, hn, ht', hf, hq, hbr, hbc⟩ := numHead_facts c hnum
      rw [show json_dumps (jint n) = intToChars n from rfl, hct, List.cons_append,
        parseValue, skipWs_not_ws c _ hws]
      dsimp only
      rw [if_neg hn, if_neg ht', if_neg hf, if_neg hq, if_neg hbr, if_neg hbc,
        if_pos hnum, ← List.cons_append, ← hct]
      exact parseNumber_int n rest hstop
  · -- jfloat
    intro neg ip frac hp fuel rest hfuel hstop
    cases fuel with
    | zero => exact absurd hfuel (Nat.not_succ_le_zero 0)
    | succ f =>
      have hfr : frac ≠ [] := by
        cases frac with
        | nil => exact Bool.noConfusion hp
        | cons d ds => simp
      obtain ⟨c, t, hct, hnum⟩ := floatToChars_head neg ip frac
      obtain ⟨hws, hn, ht', hf, hq, hbr, hbc⟩ := numHead_facts c hnum
      rw [show json_dumps (jfloat neg ip frac) = floatToChars neg ip frac from rfl, hct,
        List.cons_append, parseValue, skipWs_not_ws c _ hws]
      dsimp only
      rw [if_neg hn, if_neg ht', if_neg hf, if_neg hq, if_neg hbr, if_neg hbc,
        if_pos hnum, ← List.cons_append, ← hct]
      exact parseNumber_float neg ip frac rest hfr hstop
  · -- jstr
    intro s _ fuel rest hfuel hstop
    cases fuel with
    | zero => exact absurd hfuel (Nat.not_succ_le_zero 0)
    | succ f =>
      rw [show json_dumps (jstr s) ++ rest =
          '"' :: (s.flatMap escapeChar ++ '"' :: rest) from by
        simp [json_dumps, stringLit],
        parseValue, skipWs_not_ws '"' _ (by decide)]
      dsimp only
      rw [if_neg (by decide), if_neg (by decide), if_neg (by decide), if_pos rfl]
      rw [parseStringBody_escaped s _ rest (by
        have := length_le_flatMap_escape s
        simp only [List.length_append, List.length_cons]
        omega)]
  · -- jdatetime
    intro s hp
    exact absurd hp (by exact fun h => Bool.noConfusion h)
  · -- jdate
    intro s hp
    exact absurd hp (by exact fun h => Bool.noConfusion h)
  · -- jdecimal
    intro s hp
    exact absurd hp (by exact fun h => Bool.noConfusion h)
  · -- jlist
    intro xs ihxs hp fuel rest hfuel hstop
    cases fuel with
    | zero => exact absurd hfuel (by rw [needV] at *; omega)
    | succ f =>
      cases xs with
      | nil =>
        rw [show json_dumps (jlist []) ++ rest = '[' :: ']' :: rest from rfl,
          parseValue, skipWs_not_ws '[' _ (by decide)]
        dsimp only
        rw [if_neg (by decide), if_neg (by decide), if_neg (by decide), if_neg (by decide),
          if_pos rfl, skipWs_not_ws ']' _ (by decide)]
        dsimp only
        rw [if_pos rfl]
      | cons v vs =>
        obtain ⟨c0, t0, hc0, hws0, hne1, hne2⟩ := json_dumps_head v
        obtain ⟨X, hX⟩ := sepJoin_cons [',', ' '] (json_dumps v) (json_dumpsElems vs)
        have hshape : json_dumps (jlist (v :: vs)) ++ rest =
            '[' :: (sepJoin [',', ' '] (json_dumpsElems (v :: vs)) ++ ']' :: rest) := by
          rw [show json_dumps (jlist (v :: vs)) =
            '[' :: (sepJoin [',', ' '] (json_dumpsElems (v :: vs)) ++ [']']) from rfl]
          simp [List.append_assoc]
        rw [hshape, parseValue, skipWs_not_ws '[' _ (by decide)]
        dsimp only
        rw [if_neg (by decide), if_neg (by decide), if_neg (by decide), if_neg (by decide),
          if_pos rfl]
        have hsw : skipWs (sepJoin [',', ' '] (json_dumpsElems (v :: vs)) ++ ']' :: rest) =
            c0 :: (t0 ++ (X ++ ']' :: rest)) := by
          rw [show json_dumpsElems (v :: vs) = json_dumps v :: json_dumpsElems vs from rfl,
            hX, hc0]
          simp only [List.cons_append, List.append_assoc]
          exact skipWs_not_ws c0 _ hws0
        rw [hsw]
        dsimp only
        rw [if_neg hne1]
        exact ihxs hp (by simp) f rest (by rw [needV] at hfuel; omega) hstop
  · -- jtuple
    intro xs _ hp
    exact absurd hp (by exact fun h => Bool.noConfusion h)
  · -- jset
    intro xs _ hp
    exact absurd hp (by exact fun h => Bool.noConfusion h)
  · -- jdict
    intro kvs ihkvs hp fuel rest hfuel hstop
    have hpi : isPlainItems kvs = true := (Bool.and_eq_true_iff.mp hp).1
    cases fuel with
    | zero => exact absurd hfuel (by rw [needV] at *; omega)
    | succ f =>
      cases kvs with
      | nil =>
        rw [show json_dumps (jdict []) ++ rest = '\x7b' :: '\x7d' :: rest from rfl,
          parseValue, skipWs_not_ws '\x7b' _ (by decide)]
        dsimp only
        rw [if_neg (by decide), if_neg (by decide), if_neg (by decide), if_neg (by decide),
          if_neg (by decide), if_pos rfl, skipWs_not_ws '\x7d' _ (by decide)]
        dsimp only
        rw [if_pos rfl]
      | cons q qs =>
        obtain ⟨qk, qv⟩ := q
        obtain ⟨X, hX⟩ := sepJoin_cons [',', ' ']
          (stringLit qk ++ ':' :: ' ' :: json_dumps qv) (json_dumpsItems qs)
        have hshape : json_dumps (jdict ((qk, qv) :: qs)) ++ rest =
            '\x7b' :: (sepJoin [',', ' '] (json_dumpsItems ((qk, qv) :: qs)) ++
              '\x7d' :: rest) := by
          rw [show json_dumps (jdict ((qk, qv) :: qs)) =
            '\x7b' :: (sepJoin [',', ' '] (json_dumpsItems ((qk, qv) :: qs)) ++ ['\x7d'])
            from rfl]
          simp [List.append_assoc]
        rw [hshape, parseValue, skipWs_not_ws '\x7b' _ (by decide)]
        dsimp only
        rw [if_neg (by decide), if_neg (by decide), if_neg (by decide), if_neg (by decide),
          if_neg (by decide), if_pos rfl]
        have hsw : skipWs (sepJoin [',', ' '] (json_dumpsItems ((qk, qv) :: qs)) ++
            '\x7d' :: rest) =
            '"' :: ((qk.flatMap escapeChar ++ ['"'] ++ ':' :: ' ' :: json_dumps qv) ++
              (X ++ '\x7d' :: rest)) := by
          rw [show json_dumpsItems ((qk, qv) :: qs) =
            (stringLit qk ++ ':' :: ' ' :: json_dumps qv) :: json_dumpsItems qs from rfl,
            hX, stringLit]
          simp only [List.cons_append, List.append_assoc]
          exact skipWs_not_ws '"' _ (by decide)
        rw [hsw]
        dsimp only
        rw [if_neg (by decide)]
        exact ihkvs hpi (by simp) f rest (by rw [needV] at hfuel; omega) hstop
  · -- jobj
    intro cls hp
    exact absurd hp (by exact fun h => Bool.noConfusion h)
  · -- elems nil
    intro _ habs
    exact absurd rfl habs
  · -- elems cons
    intro v vs ihv ihvs hp _ fuel rest hfuel hstop
    have hpv : isPlain v = true := (Bool.and_eq_true_iff.mp hp).1
    have hpvs : isPlainList vs = true := (Bool.and_eq_true_iff.mp hp).2
    cases fuel with
    | zero => exact absurd hfuel (by rw [needL] at *; omega)
    | succ f =>
      rw [needL] at hfuel
      cases vs with
      | nil =>
        rw [show sepJoin [',', ' '] (json_dumpsElems [v]) = json_dumps v from rfl,
          parseElems, ihv hpv f (']' :: rest) (by omega) rfl]
        dsimp only
        rw [skipWs_not_ws ']' _ (by decide)]
        dsimp only
        rw [if_neg (by decide), if_pos rfl]
      | cons w ws2 =>
        have hsh : sepJoin [',', ' '] (json_dumpsElems (v :: w :: ws2)) ++ ']' :: rest =
            json_dumps v ++ ',' :: ' ' ::
              (sepJoin [',', ' '] (json_dumpsElems (w :: ws2)) ++ ']' :: rest) := by
          rw [show sepJoin [',', ' '] (json_dumpsElems (v :: w :: ws2)) =
            json_dumps v ++ [',', ' '] ++ sepJoin [',', ' '] (json_dumpsElems (w :: ws2))
            from rfl]
          simp [List.append_assoc]
        rw [parseElems, hsh, ihv hpv f
          (',' :: ' ' :: (sepJoin [',', ' '] (json_dumpsElems (w :: ws2)) ++ ']' :: rest))
          (by omega) rfl]
        dsimp only
        rw [skipWs_not_ws ',' _ (by decide)]
        dsimp only
        rw [if_pos rfl]
        rw [show (' ' :: (sepJoin [',', ' '] (json_dumpsElems (w :: ws2)) ++ ']' :: rest)) =
          [' '] ++ (sepJoin [',', ' '] (json_dumpsElems (w :: ws2)) ++ ']' :: rest) from rfl,
          parseElems_ws f [' '] _ (by intro c hc; rw [List.mem_singleton.mp hc]; rfl)]
        rw [ihvs hpvs (by simp) f rest (by omega) hstop]
  · -- items nil
    intro _ habs
    exact absurd rfl habs
  · -- items cons
    intro k v kvs ihv ihkvs hp _ fuel rest hfuel hstop
    have hpv : isPlain v = true := (Bool.and_eq_true_iff.mp hp).1
    have hpkvs : isPlainItems kvs = true := (Bool.and_eq_true_iff.mp hp).2
    cases fuel with
    | zero => exact absurd hfuel (by rw [needI] at *; omega)
    | succ f =>
      rw [needI] at hfuel
      cases kvs with
      | nil =>
        have hshape : sepJoin [',', ' '] (json_dumpsItems [(k, v)]) ++ '\x7d' :: rest =
            '"' :: (k.flatMap escapeChar ++
              '"' :: (':' :: ' ' :: (json_dumps v ++ '\x7d' :: rest))) := by
          rw [show sepJoin [',', ' '] (json_dumpsItems [(k, v)]) =
            stringLit k ++ ':' :: ' ' :: json_dumps v from rfl, stringLit]
          simp [List.append_assoc]
        rw [hshape, parseMembers, skipWs_not_ws '"' _ (by decide)]
        dsimp only
        rw [if_pos rfl]
        rw [parseStringBody_escaped k _ _ (by
          have := length_le_flatMap_escape k
          simp only [List.length_append, List.length_cons]
          omega)]
        dsimp only
        rw [skipWs_not_ws ':' _ (by decide)]
        dsimp only
        rw [if_pos rfl]
        rw [show (' ' :: (json_dumps v ++ '\x7d' :: rest)) =
          [' '] ++ (json_dumps v ++ '\x7d' :: rest) from rfl,
          parseValue_ws f [' '] _ (by intro c hc; rw [List.mem_singleton.mp hc]; rfl),
          ihv hpv f ('\x7d' :: rest) (by omega) rfl]
        dsimp only
        rw [skipWs_not_ws '\x7d' _ (by decide)]
        dsimp only
        rw [if_neg (by decide), if_pos rfl]
      | cons q qs =>
        have hshape : sepJoin [',', ' '] (json_dumpsItems ((k, v) :: q :: qs)) ++
            '\x7d' :: rest =
            '"' :: (k.flatMap escapeChar ++
              '"' :: (':' :: ' ' :: (json_dumps v ++ ',' :: ' ' ::
                (sepJoin [',', ' '] (json_dumpsItems (q :: qs)) ++ '\x7d' :: rest)))) := by
          rw [show sepJoin [',', ' '] (json_dumpsItems ((k, v) :: q :: qs)) =
            (stringLit k ++ ':' :: ' ' :: json_dumps v) ++ [',', ' '] ++
              sepJoin [',', ' '] (json_dumpsItems (q :: qs)) from rfl, stringLit]
          simp [List.append_assoc]
        rw [hshape, parseMembers, skipWs_not_ws '"' _ (by decide)]
        dsimp only
        rw [if_pos rfl]
        rw [parseStringBody_escaped k _ _ (by
          have := length_le_flatMap_escape k
          simp only [List.length_append, List.length_cons]
          omega)]
        dsimp only
        rw [skipWs_not_ws ':' _ (by decide)]
        dsimp only
        rw [if_pos rfl]
        rw [show (' ' :: (json_dumps v ++ ',' :: ' ' ::
            (sepJoin [',', ' '] (json_dumpsItems (q :: qs)) ++ '\x7d' :: rest))) =
          [' '] ++ (json_dumps v ++ ',' :: ' ' ::
            (sepJoin [',', ' '] (json_dumpsItems (q :: qs)) ++ '\x7d' :: rest)) from rfl,
          parseValue_ws f [' '] _ (by intro c hc; rw [List.mem_singleton.mp hc]; rfl),
          ihv hpv f (',' :: ' ' ::
            (sepJoin [',', ' '] (json_dumpsItems (q :: qs)) ++ '\x7d' :: rest))
            (by omega) rfl]
        dsimp only
        rw [skipWs_not_ws ',' _ (by decide)]
        dsimp only
        rw [if_pos rfl]
        rw [show (' ' :: (sepJoin [',', ' '] (json_dumpsItems (q :: qs)) ++ '\x7d' :: rest)) =
          [' '] ++ (sepJoin [',', ' '] (json_dumpsItems (q :: qs)) ++ '\x7d' :: rest)
          from rfl,
          parseMembers_ws f [' '] _ (by intro c hc; rw [List.mem_singleton.mp hc]; rfl),
          ihkvs hpkvs (by simp) f rest (by omega) hstop]

/-! ## Parsing the multi-line layout -/

/-- A successful element rendering of a non-empty list is non-empty and
its head is the rendering of the first element. -/
theorem _jElems_shape (v : JVal) (vs : List JVal) (next : List Char)
    (outs : List (List Char)) (h : _jElems (v :: vs) next = .ok outs) :
    ∃ o ss, outs = o :: ss ∧ _j v next false = .ok o := by
  rw [_jElems] at h
  cases hj : _j v next false with
  | error e => rw [hj] at h; exact Except.noConfusion h
  | ok s =>
    rw [hj] at h
    cases hr : _jElems vs next with
    | error e => rw [hr] at h; exact Except.noConfusion h
    | ok ss => rw [hr] at h; exact ⟨s, ss, (Except.ok.inj h).symm, rfl⟩

/-- A successful item rendering of a non-empty dict starts with the
indentation and the opening quote of the first key. -/
theorem _jItems_shape (kv : List Char × JVal) (kvs : List (List Char × JVal))
    (next : List Char) (outs : List (List Char))
    (h : _jItems (kv :: kvs) next = .ok outs) :
    ∃ Y ss, outs = (next ++ '"' :: Y) :: ss := by
  obtain ⟨k, v⟩ := kv
  rw [_jItems] at h
  cases hj : _j v next true with
  | error e => rw [hj] at h; exact Except.noConfusion h
  | ok s =>
    rw [hj] at h
    cases hr : _jItems kvs next with
    | error e => rw [hr] at h; exact Except.noConfusion h
    | ok ss =>
      rw [hr] at h
      refine ⟨k ++ '"' :: ':' :: ' ' :: s, ss, ?_⟩
      rw [← Except.ok.inj h]
      simp

/-- Any successful rendering is whitespace followed by a character that
is neither whitespace nor a closing bracket or brace. -/
theorem _j_head (x : JVal) (ind : List Char) (el : Bool) (out : List Char)
    (hind : ∀ c ∈ ind, isWs c = true) (h : _j x ind el = .ok out) :
    ∃ ws c t, out = ws ++ c :: t ∧ (∀ a ∈ ws, isWs a = true) ∧ isWs c = false ∧
      c ≠ ']' ∧ c ≠ '\x7d' := by
  have hcond : ∀ a ∈ (if el then ([] : List Char) else ind), isWs a = true := by
    cases el
    · exact hind
    · intro a ha; exact absurd ha (List.not_mem_nil a)
  cases ho : _is_oneliner x with
  | error e =>
    rw [_j_oneliner_error x ind el e ho] at h
    exact Except.noConfusion h
  | ok b =>
    cases b with
    | true =>
      rw [_j_oneliner x ind el ho] at h
      obtain ⟨c, t, hct, hws, h1, h2⟩ := json_dumps_head (setTupleToList x)
      refine ⟨if el then [] else ind, c, t, ?_, hcond, hws, h1, h2⟩
      rw [← Except.ok.inj h, hct]
    | false =>
      cases x with
      | jdict kvs =>
        cases hi : _jItems kvs (ind ++ [' ', ' ', ' ', ' ']) with
        | error e => rw [_j, ho, hi] at h; exact Except.noConfusion h
        | ok items =>
          rw [_j_dict_expand kvs ind el ho items hi] at h
          refine ⟨if el then [] else ind, '\x7b',
            '\n' :: (sepJoin [',', '\n'] items ++ ('\n' :: ind ++ ['\x7d'])),
            ?_, hcond, by decide, by decide, by decide⟩
          rw [← Except.ok.inj h]
          simp
      | jlist xs =>
        cases he : _jElems xs (ind ++ [' ', ' ', ' ', ' ']) with
        | error e => rw [_j, ho, he] at h; exact Except.noConfusion h
        | ok elems =>
          rw [_j_list_expand xs ind el ho elems he] at h
          refine ⟨if el then [] else ind, '[',
            '\n' :: (sepJoin [',', '\n'] elems ++ ('\n' :: ind ++ [']'])),
            ?_, hcond, by decide, by decide, by decide⟩
          rw [← Except.ok.inj h]
          simp
      | jset xs =>
        cases he : _jElems xs (ind ++ [' ', ' ', ' ', ' ']) with
        | error e => rw [_j, ho, he] at h; exact Except.noConfusion h
        | ok elems =>
          rw [_j_set_expand xs ind el ho elems he] at h
          refine ⟨if el then [] else ind, '[',
            '\n' :: (sepJoin [',', '\n'] elems ++ ('\n' :: ind ++ [']'])),
            ?_, hcond, by decide, by decide, by decide⟩
          rw [← Except.ok.inj h]
          simp
      | jtuple xs =>
        cases he : _jElems xs (ind ++ [' ', ' ', ' ', ' ']) with
        | error e => rw [_j, ho, he] at h; exact Except.noConfusion h
        | ok elems =>
          rw [_j_tuple_expand xs ind el ho elems he] at h
          refine ⟨if el then [] else ind, '[',
            '\n' :: (sepJoin [',', '\n'] elems ++ ('\n' :: ind ++ [']'])),
            ?_, hcond, by decide, by decide, by decide⟩
          rw [← Except.ok.inj h]
          simp
      | jobj cls => exact Except.noConfusion ho
      | jnull => exact Bool.noConfusion (Except.ok.inj ho)
      | jbool b => exact Bool.noConfusion (Except.ok.inj ho)
      | jint n => exact Bool.noConfusion (Except.ok.inj ho)
      | jfloat neg ip frac => exact Bool.noConfusion (Except.ok.inj ho)
      | jstr s => exact Bool.noConfusion (Except.ok.inj ho)
      | jdatetime s => exact Bool.noConfusion (Except.ok.inj ho)
      | jdate s => exact Bool.noConfusion (Except.ok.inj ho)
      | jdecimal s => exact Bool.noConfusion (Except.ok.inj ho)

/-- The fuel requirement of a value is bounded by its one-line
rendering's length. -/
theorem needV_le_json_dumps :
    ∀ v : JVal, needV v ≤ (json_dumps v).length + 1 := by
  intro v0
  refine json_dumps.induct
    (fun v => needV v ≤ (json_dumps v).length + 1)
    (fun kvs => needI kvs ≤ (sepJoin [',', ' '] (json_dumpsItems kvs)).length + 2)
    (fun xs => needL xs ≤ (sepJoin [',', ' '] (json_dumpsElems xs)).length + 2)
    ?_ ?_ ?_ ?_ ?_ ?_ ?_ ?_ ?_ ?_ ?_ ?_ ?_ ?_ ?_ ?_ ?_ ?_ v0
  · exact Nat.succ_le_succ (Nat.zero_le _)
  · exact Nat.succ_le_succ (Nat.zero_le _)
  · exact Nat.succ_le_succ (Nat.zero_le _)
  · intro n; exact Nat.succ_le_succ (Nat.zero_le _)
  · intro neg ip frac; exact Nat.succ_le_succ (Nat.zero_le _)
  · intro s; exact Nat.succ_le_succ (Nat.zero_le _)
  · intro s; exact Nat.succ_le_succ (Nat.zero_le _)
  · intro s; exact Nat.succ_le_succ (Nat.zero_le _)
  · intro s; exact Nat.succ_le_succ (Nat.zero_le _)
  · -- jlist
    intro xs ih
    rw [needV, show json_dumps (jlist xs) =
      '[' :: sepJoin [',', ' '] (json_dumpsElems xs) ++ [']'] from rfl]
    simp only [List.length_append, List.length_cons, List.length_nil]
    omega
  · intro xs ih; exact Nat.succ_le_succ (Nat.zero_le _)
  · intro xs ih; exact Nat.succ_le_succ (Nat.zero_le _)
  · -- jdict
    intro kvs ih
    rw [needV, show json_dumps (jdict kvs) =
      '\x7b' :: sepJoin [',', ' '] (json_dumpsItems kvs) ++ ['\x7d'] from rfl]
    simp only [List.length_append, List.length_cons, List.length_nil]
    omega
  · intro cls; exact Nat.succ_le_succ (Nat.zero_le _)
  · -- elems nil
    decide
  · -- elems cons
    intro v vs ihv ihvs
    rw [needL]
    cases vs with
    | nil =>
      rw [show sepJoin [',', ' '] (json_dumpsElems [v]) = json_dumps v from rfl]
      rw [needL]
      omega
    | cons w ws =>
      rw [show sepJoin [',', ' '] (json_dumpsElems (v :: w :: ws)) =
        json_dumps v ++ [',', ' '] ++ sepJoin [',', ' '] (json_dumpsElems (w :: ws))
        from rfl] at *
      simp only [List.length_append, List.length_cons, List.length_nil] at *
      omega
  · -- items nil
    decide
  · -- items cons
    intro k v kvs ihv ihkvs
    rw [needI]
    cases kvs with
    | nil =>
      rw [show sepJoin [',', ' '] (json_dumpsItems [(k, v)]) =
        stringLit k ++ ':' :: ' ' :: json_dumps v from rfl]
      rw [needI]
      simp only [List.length_append, List.length_cons]
      omega
    | cons q qs =>
      rw [show sepJoin [',', ' '] (json_dumpsItems ((k, v) :: q :: qs)) =
        (stringLit k ++ ':' :: ' ' :: json_dumps v) ++ [',', ' '] ++
          sepJoin [',', ' '] (json_dumpsItems (q :: qs)) from rfl] at *
      simp only [List.length_append, List.length_cons, List.length_nil] at *
      omega

/-- Converting a set or tuple to a list never lowers the fuel
requirement. -/
theorem needV_le_setTupleToList (t : JVal) : needV t ≤ needV (setTupleToList t) := by
  cases t <;> first
    | exact Nat.le_add_right 1 _
    | exact Nat.le_refl _

/-- The fuel requirement of a value is bounded by the length of its
layout rendering. -/
theorem needV_le_j :
    ∀ (x : JVal) (ind : List Char) (el : Bool) (out : List Char),
      _j x ind el = .ok out → needV x ≤ out.length + 1 := by
  intro x0 ind0 el0
  refine _j.induct
    (fun x ind el => ∀ out, _j x ind el = .ok out → needV x ≤ out.length + 1)
    (fun xs next => ∀ outs, _jElems xs next = .ok outs →
      needL xs ≤ (sepJoin [',', '\n'] outs).length + 2)
    (fun kvs next => ∀ outs, _jItems kvs next = .ok outs →
      needI kvs ≤ (sepJoin [',', '\n'] outs).length + 2)
    ?_ ?_ ?_ ?_ ?_ ?_ ?_ ?_ ?_ ?_ ?_ ?_ ?_ ?_ ?_ ?_ ?_ ?_ ?_ x0 ind0 el0
  · -- oneliner error
    intro t ind el e herr out hout
    rw [_j_oneliner_error t ind el e herr] at hout
    exact Except.noConfusion hout
  · -- oneliner true
    intro t ind el hone out hout
    have hX := _j_oneliner t ind el hone
    rw [hout] at hX
    obtain rfl := Except.ok.inj hX
    have h1 := needV_le_setTupleToList t
    have h2 := needV_le_json_dumps (setTupleToList t)
    simp only [List.length_append]
    omega
  · -- jdict, items error
    intro ind el next_ kvs e hji ho ih out hout
    have hji2 : _jItems kvs (ind ++ [' ', ' ', ' ', ' ']) = .error e := hji
    rw [_j, ho, hji2] at hout
    exact Except.noConfusion hout
  · -- jdict, items ok
    intro ind el next_ kvs items hji ho ih out hout
    have hji2 : _jItems kvs (ind ++ [' ', ' ', ' ', ' ']) = .ok items := hji
    have hX := _j_dict_expand kvs ind el ho items hji2
    rw [hout] at hX
    obtain rfl := Except.ok.inj hX
    have h2 := ih items hji
    rw [needV]
    simp only [List.length_append, List.length_cons, List.length_nil]
    omega
  · -- jlist, elems error
    intro ind el next_ xs e hje ho ih out hout
    have hje2 : _jElems xs (ind ++ [' ', ' ', ' ', ' ']) = .error e := hje
    rw [_j, ho, hje2] at hout
    exact Except.noConfusion hout
  · -- jlist, elems ok
    intro ind el next_ xs elems hje ho ih out hout
    have hje2 : _jElems xs (ind ++ [' ', ' ', ' ', ' ']) = .ok elems := hje
    have hX := _j_list_expand xs ind el ho elems hje2
    rw [hout] at hX
    obtain rfl := Except.ok.inj hX
    have h2 := ih elems hje
    rw [needV]
    simp only [List.length_append, List.length_cons, List.length_nil]
    omega
  · -- jset, elems error
    intro ind el next_ xs e hje ho ih out hout
    exact Nat.succ_le_succ (Nat.zero_le _)
  · -- jset, elems ok
    intro ind el next_ xs elems hje ho ih out hout
    exact Nat.succ_le_succ (Nat.zero_le _)
  · -- jtuple, elems error
    intro ind el next_ xs e hje ho ih out hout
    exact Nat.succ_le_succ (Nat.zero_le _)
  · -- jtuple, elems ok
    intro ind el next_ xs elems hje ho ih out hout
    exact Nat.succ_le_succ (Nat.zero_le _)
  · -- remaining constructors
    intro ind el y hnd hnl hns hnt ho out hout
    cases y <;> first
      | exact Nat.succ_le_succ (Nat.zero_le _)
      | exact (hnd _ rfl).elim
      | exact (hnl _ rfl).elim
  · -- elems nil
    intro next_ outs houts
    obtain rfl := Except.ok.inj houts
    decide
  · -- elems cons, head error
    intro next_ v vs e hje ihv outs houts
    rw [_jElems, hje] at houts
    exact Except.noConfusion houts
  · -- elems cons, tail error
    intro next_ v vs s hjv e hje ihv ihvs outs houts
    rw [_jElems, hjv, hje] at houts
    exact Except.noConfusion houts
  · -- elems cons, both ok
    intro next_ v vs s hjv items hji ihv ihvs outs houts
    have houts2 : _jElems (v :: vs) next_ = .ok (s :: items) := by
      rw [_jElems, hjv, hji]
    rw [houts2] at houts
    obtain rfl := Except.ok.inj houts
    have h1 := ihv s hjv
    rw [needL]
    cases vs with
    | nil =>
      obtain rfl : items = [] := (Except.ok.inj hji).symm
      rw [show sepJoin [',', '\n'] [s] = s from rfl, needL]
      omega
    | cons w ws =>
      obtain ⟨o, ss, rfl, _⟩ := _jElems_shape w ws next_ items hji
      have h2 := ihvs (o :: ss) hji
      rw [show sepJoin [',', '\n'] (s :: o :: ss) =
        s ++ [',', '\n'] ++ sepJoin [',', '\n'] (o :: ss) from rfl]
      simp only [List.length_append, List.length_cons, List.length_nil] at *
      omega
  · -- items nil
    intro next_ outs houts
    obtain rfl := Except.ok.inj houts
    decide
  · -- items cons, head error
    intro next_ k v kvs e hjv ihv outs houts
    rw [_jItems, hjv] at houts
    exact Except.noConfusion houts
  · -- items cons, tail error
    intro next_ k v kvs s hjv e hji ihv ihkvs outs houts
    rw [_jItems, hjv, hji] at houts
    exact Except.noConfusion houts
  · -- items cons, both ok
    intro next_ k v kvs s hjv items hji ihv ihkvs outs houts
    have houts2 : _jItems ((k, v) :: kvs) next_ =
        .ok ((next_ ++ '"' :: k ++ '"' :: ':' :: ' ' :: s) :: items) := by
      rw [_jItems, hjv, hji]
    rw [houts2] at houts
    obtain rfl := Except.ok.inj houts
    have h1 := ihv s hjv
    rw [needI]
    cases kvs with
    | nil =>
      obtain rfl : items = [] := (Except.ok.inj hji).symm
      rw [show sepJoin [',', '\n'] [next_ ++ '"' :: k ++ '"' :: ':' :: ' ' :: s] =
        next_ ++ '"' :: k ++ '"' :: ':' :: ' ' :: s from rfl, needI]
      simp only [List.length_append, List.length_cons]
      omega
    | cons q qs =>
      obtain ⟨Y, ss, rfl⟩ := _jItems_shape q qs next_ items hji
      have h2 := ihkvs ((next_ ++ '"' :: Y) :: ss) hji
      rw [show sepJoin [',', '\n']
          ((next_ ++ '"' :: k ++ '"' :: ':' :: ' ' :: s) :: (next_ ++ '"' :: Y) :: ss) =
        (next_ ++ '"' :: k ++ '"' :: ':' :: ' ' :: s) ++ [',', '\n'] ++
          sepJoin [',', '\n'] ((next_ ++ '"' :: Y) :: ss) from rfl]
      simp only [List.length_append, List.length_cons, List.length_nil] at *
      omega

/-- The value parser inverts the multi-line layout `_j` on plain values
with clean keys, given whitespace-only indentation, fuel at least the
value's requirement and a stop character after the rendering; jointly,
the member and element parsers invert the rendered item and element
lists up to the closing brace or bracket. -/
theorem parseValue_layout :
    ∀ (x : JVal) (ind : List Char) (el : Bool),
      (∀ c ∈ ind, isWs c = true) → isPlain x = true → keysClean x = true →
      ∀ out, _j x ind el = .ok out →
      ∀ (fuel : Nat) (rest : List Char), needV x ≤ fuel → stopsB rest = true →
      parseValue fuel (out ++ rest) = some (x, rest) := by
  intro x0 ind0 el0
  refine _j.induct
    (fun x ind el => (∀ c ∈ ind, isWs c = true) → isPlain x = true →
      keysClean x = true → ∀ out, _j x ind el = .ok out →
      ∀ (fuel : Nat) (rest : List Char), needV x ≤ fuel → stopsB rest = true →
      parseValue fuel (out ++ rest) = some (x, rest))
    (fun xs next => (∀ c ∈ next, isWs c = true) → isPlainList xs = true →
      keysCleanList xs = true → xs ≠ [] → ∀ outs, _jElems xs next = .ok outs →
      ∀ (fuel : Nat) (close rest : List Char), needL xs ≤ fuel →
        (∀ c ∈ close, isWs c = true) → stopsB (close ++ ']' :: rest) = true →
        stopsB rest = true →
        parseElems fuel (sepJoin [',', '\n'] outs ++ close ++ ']' :: rest) =
          some (jlist xs, rest))
    (fun kvs next => (∀ c ∈ next, isWs c = true) → isPlainItems kvs = true →
      keysCleanItems kvs = true → kvs ≠ [] → ∀ outs, _jItems kvs next = .ok outs →
      ∀ (fuel : Nat) (close rest : List Char), needI kvs ≤ fuel →
        (∀ c ∈ close, isWs c = true) → stopsB (close ++ '\x7d' :: rest) = true →
        stopsB rest = true →
        parseMembers fuel (sepJoin [',', '\n'] outs ++ close ++ '\x7d' :: rest) =
          some (jdict kvs, rest))
    ?_ ?_ ?_ ?_ ?_ ?_ ?_ ?_ ?_ ?_ ?_ ?_ ?_ ?_ ?_ ?_ ?_ ?_ ?_ x0 ind0 el0
  · -- oneliner raises
    intro t ind el e herr
    intro hind hp hk out hout fuel rest hfuel hstop
    rw [_j_oneliner_error t ind el e herr] at hout
    exact Except.noConfusion hout
  · -- oneliner rendering
    intro t ind el hone
    intro hind hp hk out hout fuel rest hfuel hstop
    have hX := _j_oneliner t ind el hone
    rw [hout] at hX
    obtain rfl := Except.ok.inj hX
    have hcond : ∀ a ∈ (if el then ([] : List Char) else ind), isWs a = true := by
      cases el
      · exact hind
      · intro a ha; exact absurd ha (List.not_mem_nil a)
    rw [setTupleToList_plain t hp, List.append_assoc, parseValue_ws fuel _ _ hcond]
    exact parseValue_json_dumps t hp fuel rest hfuel hstop
  · -- dict whose items raise
    intro ind el next_ kvs e hji ho ih
    intro hind hp hk out hout fuel rest hfuel hstop
    have hji2 : _jItems kvs (ind ++ [' ', ' ', ' ', ' ']) = .error e := hji
    rw [_j, ho, hji2] at hout
    exact Except.noConfusion hout
  · -- expanded dict
    intro ind el next_ kvs items hji ho ih
    intro hind hp hk out hout fuel rest hfuel hstop
    have hnext : next_ = ind ++ [' ', ' ', ' ', ' '] := rfl
    have hwnext : ∀ c ∈ next_, isWs c = true := by
      rw [hnext]
      intro c hc
      rcases List.mem_append.mp hc with hc | hc
      · exact hind c hc
      · simp only [List.mem_cons, List.not_mem_nil, or_false] at hc
        rcases hc with rfl | rfl | rfl | rfl <;> rfl
    have hpi : isPlainItems kvs = true := by
      rw [isPlain] at hp
      exact (Bool.and_eq_true_iff.mp hp).1
    have hki : keysCleanItems kvs = true := by
      rw [keysClean] at hk
      exact hk
    have hji2 : _jItems kvs (ind ++ [' ', ' ', ' ', ' ']) = .ok items := hji
    have hX := _j_dict_expand kvs ind el ho items hji2
    rw [hout] at hX
    obtain rfl := Except.ok.inj hX
    have hcond : ∀ a ∈ (if el then ([] : List Char) else ind), isWs a = true := by
      cases el
      · exact hind
      · intro a ha; exact absurd ha (List.not_mem_nil a)
    cases fuel with
    | zero => exact absurd hfuel (by rw [needV] at *; omega)
    | succ f =>
      cases kvs with
      | nil => exact Bool.noConfusion (Except.ok.inj ho)
      | cons q qs =>
        obtain ⟨Y, ss, rfl⟩ := _jItems_shape q qs next_ items hji
        obtain ⟨X0, hX0⟩ := sepJoin_cons [',', '\n'] (next_ ++ '"' :: Y) ss
        have hshape : ((if el then ([] : List Char) else ind) ++ '\x7b' :: '\n' ::
            sepJoin [',', '\n'] ((next_ ++ '"' :: Y) :: ss) ++ '\n' :: ind ++ ['\x7d']) ++
            rest =
            (if el then ([] : List Char) else ind) ++ '\x7b' ::
              ('\n' :: (sepJoin [',', '\n'] ((next_ ++ '"' :: Y) :: ss) ++
                '\n' :: ind ++ '\x7d' :: rest)) := by
          simp [List.append_assoc]
        rw [hshape, parseValue_ws (f + 1) _ _ hcond, parseValue,
          skipWs_not_ws '\x7b' _ (by decide)]
        dsimp only
        rw [if_neg (by decide), if_neg (by decide), if_neg (by decide), if_neg (by decide),
          if_neg (by decide), if_pos rfl]
        have hws2 : ∀ c ∈ ('\n' :: next_), isWs c = true := by
          intro c hc
          rcases List.mem_cons.mp hc with rfl | hc
          · rfl
          · exact hwnext c hc
        have hsw : skipWs ('\n' :: (sepJoin [',', '\n'] ((next_ ++ '"' :: Y) :: ss) ++
            '\n' :: ind ++ '\x7d' :: rest)) =
            '"' :: (Y ++ (X0 ++ ('\n' :: ind ++ '\x7d' :: rest))) := by
          rw [hX0]
          rw [show ('\n' :: (((next_ ++ '"' :: Y) ++ X0) ++ '\n' :: ind ++ '\x7d' :: rest)) =
            ('\n' :: next_) ++ ('"' :: (Y ++ (X0 ++ ('\n' :: ind ++ '\x7d' :: rest))))
            from by simp [List.append_assoc]]
          rw [skipWs_ws_append _ _ hws2, skipWs_not_ws '"' _ (by decide)]
        rw [hsw]
        dsimp only
        rw [if_neg (by decide)]
        rw [show ('\n' :: (sepJoin [',', '\n'] ((next_ ++ '"' :: Y) :: ss) ++
            '\n' :: ind ++ '\x7d' :: rest)) =
          ['\n'] ++ (sepJoin [',', '\n'] ((next_ ++ '"' :: Y) :: ss) ++
            '\n' :: ind ++ '\x7d' :: rest) from rfl,
          parseMembers_ws f ['\n'] _ (by intro c hc; rw [List.mem_singleton.mp hc]; rfl)]
        exact ih hwnext hpi hki (by simp) ((next_ ++ '"' :: Y) :: ss) hji f
          ('\n' :: ind) rest (by rw [needV] at hfuel; omega)
          (by intro c hc
              rcases List.mem_cons.mp hc with rfl | hc
              · rfl
              · exact hind c hc)
          rfl hstop
  · -- list whose elements raise
    intro ind el next_ xs e hje ho ih
    intro hind hp hk out hout fuel rest hfuel hstop
    have hje2 : _jElems xs (ind ++ [' ', ' ', ' ', ' ']) = .error e := hje
    rw [_j, ho, hje2] at hout
    exact Except.noConfusion hout
  · -- expanded list
    intro ind el next_ xs elems hje ho ih
    intro hind hp hk out hout fuel rest hfuel hstop
    have hnext : next_ = ind ++ [' ', ' ', ' ', ' '] := rfl
    have hwnext : ∀ c ∈ next_, isWs c = true := by
      rw [hnext]
      intro c hc
      rcases List.mem_append.mp hc with hc | hc
      · exact hind c hc
      · simp only [List.mem_cons, List.not_mem_nil, or_false] at hc
        rcases hc with rfl | rfl | rfl | rfl <;> rfl
    have hpl : isPlainList xs = true := by
      rw [isPlain] at hp
      exact hp
    have hkl : keysCleanList xs = true := by
      rw [keysClean] at hk
      exact hk
    have hje2 : _jElems xs (ind ++ [' ', ' ', ' ', ' ']) = .ok elems := hje
    have hX := _j_list_expand xs ind el ho elems hje2
    rw [hout] at hX
    obtain rfl := Except.ok.inj hX
    have hcond : ∀ a ∈ (if el then ([] : List Char) else ind), isWs a = true := by
      cases el
      · exact hind
      · intro a ha; exact absurd ha (List.not_mem_nil a)
    cases fuel with
    | zero => exact absurd hfuel (by rw [needV] at *; omega)
    | succ f =>
      cases xs with
      | nil => exact Bool.noConfusion (Except.ok.inj ho)
      | cons v vs =>
        obtain ⟨o, ss, rfl, hjo⟩ := _jElems_shape v vs next_ elems hje
        obtain ⟨ws1, c0, t0, rfl, hws1, hc0ws, hc0r, hc0b⟩ :=
          _j_head v next_ false o hwnext hjo
        obtain ⟨X0, hX0⟩ := sepJoin_cons [',', '\n'] (ws1 ++ c0 :: t0) ss
        have hshape : ((if el then ([] : List Char) else ind) ++ '[' :: '\n' ::
            sepJoin [',', '\n'] ((ws1 ++ c0 :: t0) :: ss) ++ '\n' :: ind ++ [']']) ++
            rest =
            (if el then ([] : List Char) else ind) ++ '[' ::
              ('\n' :: (sepJoin [',', '\n'] ((ws1 ++ c0 :: t0) :: ss) ++
                '\n' :: ind ++ ']' :: rest)) := by
          simp [List.append_assoc]
        rw [hshape, parseValue_ws (f + 1) _ _ hcond, parseValue,
          skipWs_not_ws '[' _ (by decide)]
        dsimp only
        rw [if_neg (by decide), if_neg (by decide), if_neg (by decide), if_neg (by decide),
          if_pos rfl]
        have hws2 : ∀ c ∈ ('\n' :: ws1), isWs c = true := by
          intro c hc
          rcases List.mem_cons.mp hc with rfl | hc
          · rfl
          · exact hws1 c hc
        have hsw : skipWs ('\n' :: (sepJoin [',', '\n'] ((ws1 ++ c0 :: t0) :: ss) ++
            '\n' :: ind ++ ']' :: rest)) =
            c0 :: (t0 ++ (X0 ++ ('\n' :: ind ++ ']' :: rest))) := by
          rw [hX0]
          rw [show ('\n' :: (((ws1 ++ c0 :: t0) ++ X0) ++ '\n' :: ind ++ ']' :: rest)) =
            ('\n' :: ws1) ++ (c0 :: (t0 ++ (X0 ++ ('\n' :: ind ++ ']' :: rest))))
            from by simp [List.append_assoc]]
          rw [skipWs_ws_append _ _ hws2, skipWs_not_ws c0 _ hc0ws]
        rw [hsw]
        dsimp only
        rw [if_neg hc0r]
        rw [show ('\n' :: (sepJoin [',', '\n'] ((ws1 ++ c0 :: t0) :: ss) ++
            '\n' :: ind ++ ']' :: rest)) =
          ['\n'] ++ (sepJoin [',', '\n'] ((ws1 ++ c0 :: t0) :: ss) ++
            '\n' :: ind ++ ']' :: rest) from rfl,
          parseElems_ws f ['\n'] _ (by intro c hc; rw [List.mem_singleton.mp hc]; rfl)]
        exact ih hwnext hpl hkl (by simp) ((ws1 ++ c0 :: t0) :: ss) hje f
          ('\n' :: ind) rest (by rw [needV] at hfuel; omega)
          (by intro c hc
              rcases List.mem_cons.mp hc with rfl | hc
              · rfl
              · exact hind c hc)
          rfl hstop
  · -- set whose elements raise: sets are not plain
    intro ind el next_ xs e hje ho ih
    intro hind hp
    exact Bool.noConfusion hp
  · -- expanded set: sets are not plain
    intro ind el next_ xs elems hje ho ih
    intro hind hp
    exact Bool.noConfusion hp
  · -- tuple whose elements raise: tuples are not plain
    intro ind el next_ xs e hje ho ih
    intro hind hp
    exact Bool.noConfusion hp
  · -- expanded tuple: tuples are not plain
    intro ind el next_ xs elems hje ho ih
    intro hind hp
    exact Bool.noConfusion hp
  · -- remaining constructors: atomic or rejected
    intro ind el y hnd hnl hns hnt ho
    intro hind hp
    cases y <;> first
      | exact Bool.noConfusion hp
      | exact (hnd _ rfl).elim
      | exact (hnl _ rfl).elim
      | exact Bool.noConfusion (Except.ok.inj ho)
  · -- elements nil
    intro next_
    intro hwnext hp hk hne
    exact absurd rfl hne
  · -- elements cons, head raises
    intro next_ v vs e hje ihv
    intro hwnext hp hk hne outs houts
    rw [_jElems, hje] at houts
    exact Except.noConfusion houts
  · -- elements cons, tail raises
    intro next_ v vs s hjv e hje ihv ihvs
    intro hwnext hp hk hne outs houts
    rw [_jElems, hjv, hje] at houts
    exact Except.noConfusion houts
  · -- elements cons
    intro next_ v vs s hjv items hji ihv ihvs
    intro hwnext hp hk hne outs houts fuel close rest hfuel hclose hcs hstop
    have hpv : isPlain v = true := (Bool.and_eq_true_iff.mp hp).1
    have hpvs : isPlainList vs = true := (Bool.and_eq_true_iff.mp hp).2
    have hkv : keysClean v = true := (Bool.and_eq_true_iff.mp hk).1
    have hkvs : keysCleanList vs = true := (Bool.and_eq_true_iff.mp hk).2
    have houts2 : _jElems (v :: vs) next_ = .ok (s :: items) := by
      rw [_jElems, hjv, hji]
    rw [houts2] at houts
    obtain rfl := Except.ok.inj houts
    cases fuel with
    | zero => exact absurd hfuel (by rw [needL] at *; omega)
    | succ f =>
      rw [needL] at hfuel
      cases vs with
      | nil =>
        obtain rfl : items = [] := (Except.ok.inj hji).symm
        rw [show sepJoin [',', '\n'] [s] ++ close ++ ']' :: rest =
          s ++ (close ++ ']' :: rest) from by
            rw [show sepJoin [',', '\n'] [s] = s from rfl, List.append_assoc]]
        rw [parseElems, ihv hwnext hpv hkv s hjv f (close ++ ']' :: rest) (by omega) hcs]
        dsimp only
        rw [skipWs_ws_append close _ hclose, skipWs_not_ws ']' _ (by decide)]
        dsimp only
        rw [if_neg (by decide), if_pos rfl]
      | cons w ws2 =>
        obtain ⟨o, ss, rfl, _⟩ := _jElems_shape w ws2 next_ items hji
        have hsh : sepJoin [',', '\n'] (s :: o :: ss) ++ close ++ ']' :: rest =
            s ++ (',' :: '\n' ::
              (sepJoin [',', '\n'] (o :: ss) ++ close ++ ']' :: rest)) := by
          rw [show sepJoin [',', '\n'] (s :: o :: ss) =
            s ++ [',', '\n'] ++ sepJoin [',', '\n'] (o :: ss) from rfl]
          simp [List.append_assoc]
        rw [parseElems, hsh, ihv hwnext hpv hkv s hjv f
          (',' :: '\n' :: (sepJoin [',', '\n'] (o :: ss) ++ close ++ ']' :: rest))
          (by omega) rfl]
        dsimp only
        rw [skipWs_not_ws ',' _ (by decide)]
        dsimp only
        rw [if_pos rfl]
        rw [show ('\n' :: (sepJoin [',', '\n'] (o :: ss) ++ close ++ ']' :: rest)) =
          ['\n'] ++ (sepJoin [',', '\n'] (o :: ss) ++ close ++ ']' :: rest) from rfl,
          parseElems_ws f ['\n'] _ (by intro c hc; rw [List.mem_singleton.mp hc]; rfl)]
        rw [ihvs hwnext hpvs hkvs (by simp) (o :: ss) hji f close rest (by omega)
          hclose hcs hstop]
  · -- items nil
    intro next_
    intro hwnext hp hk hne
    exact absurd rfl hne
  · -- items cons, value raises
    intro next_ k v kvs e hjv ihv
    intro hwnext hp hk hne outs houts
    rw [_jItems, hjv] at houts
    exact Except.noConfusion houts
  · -- items cons, tail raises
    intro next_ k v kvs s hjv e hji ihv ihkvs
    intro hwnext hp hk hne outs houts
    rw [_jItems, hjv, hji] at houts
    exact Except.noConfusion houts
  · -- items cons
    intro next_ k v kvs s hjv items hji ihv ihkvs
    intro hwnext hp hk hne outs houts fuel close rest hfuel hclose hcs hstop
    have hpv : isPlain v = true := (Bool.and_eq_true_iff.mp hp).1
    have hpk : isPlainItems kvs = true := (Bool.and_eq_true_iff.mp hp).2
    have hk1 := (Bool.and_eq_true_iff.mp hk).1
    have hkk : k.all cleanChar = true := (Bool.and_eq_true_iff.mp hk1).1
    have hkv : keysClean v = true := (Bool.and_eq_true_iff.mp hk1).2
    have hkvs : keysCleanItems kvs = true := (Bool.and_eq_true_iff.mp hk).2
    have houts2 : _jItems ((k, v) :: kvs) next_ =
        .ok ((next_ ++ '"' :: k ++ '"' :: ':' :: ' ' :: s) :: items) := by
      rw [_jItems, hjv, hji]
    rw [houts2] at houts
    obtain rfl := Except.ok.inj houts
    cases fuel with
    | zero => exact absurd hfuel (by rw [needI] at *; omega)
    | succ f =>
      rw [needI] at hfuel
      cases kvs with
      | nil =>
        obtain rfl : items = [] := (Except.ok.inj hji).symm
        have hshape : sepJoin [',', '\n'] [next_ ++ '"' :: k ++ '"' :: ':' :: ' ' :: s] ++
            close ++ '\x7d' :: rest =
            next_ ++ '"' :: (k ++ '"' ::
              (':' :: ' ' :: (s ++ (close ++ '\x7d' :: rest)))) := by
          rw [show sepJoin [',', '\n'] [next_ ++ '"' :: k ++ '"' :: ':' :: ' ' :: s] =
            next_ ++ '"' :: k ++ '"' :: ':' :: ' ' :: s from rfl]
          simp [List.append_assoc]
        rw [hshape, parseMembers, skipWs_ws_append next_ _ hwnext,
          skipWs_not_ws '"' _ (by decide)]
        dsimp only
        rw [if_pos rfl]
        rw [parseStringBody_clean k _ _
          (by simp only [List.length_append, List.length_cons]; omega)
          (cleanKey_spec k hkk)]
        dsimp only
        rw [skipWs_not_ws ':' _ (by decide)]
        dsimp only
        rw [if_pos rfl]
        rw [show (' ' :: (s ++ (close ++ '\x7d' :: rest))) =
          [' '] ++ (s ++ (close ++ '\x7d' :: rest)) from rfl,
          parseValue_ws f [' '] _ (by intro c hc; rw [List.mem_singleton.mp hc]; rfl),
          ihv hwnext hpv hkv s hjv f (close ++ '\x7d' :: rest) (by omega) hcs]
        dsimp only
        rw [skipWs_ws_append close _ hclose, skipWs_not_ws '\x7d' _ (by decide)]
        dsimp only
        rw [if_neg (by decide), if_pos rfl]
      | cons q qs =>
        obtain ⟨Y, ss, rfl⟩ := _jItems_shape q qs next_ items hji
        have hshape : sepJoin [',', '\n']
            ((next_ ++ '"' :: k ++ '"' :: ':' :: ' ' :: s) :: (next_ ++ '"' :: Y) :: ss) ++
            close ++ '\x7d' :: rest =
            next_ ++ '"' :: (k ++ '"' :: (':' :: ' ' :: (s ++ (',' :: '\n' ::
              (sepJoin [',', '\n'] ((next_ ++ '"' :: Y) :: ss) ++
                close ++ '\x7d' :: rest))))) := by
          rw [show sepJoin [',', '\n']
              ((next_ ++ '"' :: k ++ '"' :: ':' :: ' ' :: s) ::
                (next_ ++ '"' :: Y) :: ss) =
            (next_ ++ '"' :: k ++ '"' :: ':' :: ' ' :: s) ++ [',', '\n'] ++
              sepJoin [',', '\n'] ((next_ ++ '"' :: Y) :: ss) from rfl]
          simp [List.append_assoc]
        rw [hshape, parseMembers, skipWs_ws_append next_ _ hwnext,
          skipWs_not_ws '"' _ (by decide)]
        dsimp only
        rw [if_pos rfl]
        rw [parseStringBody_clean k _ _
          (by simp only [List.length_append, List.length_cons]; omega)
          (cleanKey_spec k hkk)]
        dsimp only
        rw [skipWs_not_ws ':' _ (by decide)]
        dsimp only
        rw [if_pos rfl]
        rw [show (' ' :: (s ++ (',' :: '\n' ::
            (sepJoin [',', '\n'] ((next_ ++ '"' :: Y) :: ss) ++
              close ++ '\x7d' :: rest)))) =
          [' '] ++ (s ++ (',' :: '\n' ::
            (sepJoin [',', '\n'] ((next_ ++ '"' :: Y) :: ss) ++
              close ++ '\x7d' :: rest))) from rfl,
          parseValue_ws f [' '] _ (by intro c hc; rw [List.mem_singleton.mp hc]; rfl),
          ihv hwnext hpv hkv s hjv f (',' :: '\n' ::
            (sepJoin [',', '\n'] ((next_ ++ '"' :: Y) :: ss) ++ close ++ '\x7d' :: rest))
            (by omega) rfl]
        dsimp only
        rw [skipWs_not_ws ',' _ (by decide)]
        dsimp only
        rw [if_pos rfl]
        rw [show ('\n' :: (sepJoin [',', '\n'] ((next_ ++ '"' :: Y) :: ss) ++
            close ++ '\x7d' :: rest)) =
          ['\n'] ++ (sepJoin [',', '\n'] ((next_ ++ '"' :: Y) :: ss) ++
            close ++ '\x7d' :: rest) from rfl,
          parseMembers_ws f ['\n'] _ (by intro c hc; rw [List.mem_singleton.mp hc]; rfl)]
        rw [ihkvs hwnext hpk hkvs (by simp) ((next_ ++ '"' :: Y) :: ss) hji f close rest
          (by omega) hclose hcs hstop]

/-- The layout recursion succeeds on every plain value: plain values
contain no unsupported-class instance to raise on. -/
theorem _j_ok_of_plain (x : JVal) (ind : List Char) (el : Bool)
    (hp : isPlain x = true) : ∃ out, _j x ind el = .ok out := by
  cases h : _j x ind el with
  | ok out => exact ⟨out, rfl⟩
  | error e =>
    obtain ⟨cls, _, hmem⟩ := _j_error_bound (sizeOf x) x (Nat.le_refl _) ind el e h
    rw [objClasses_plain x hp] at hmem
    exact absurd hmem (List.not_mem_nil cls)

/-- Rendering by `dumps` followed by a standard JSON parse. -/
def roundTrip (x : JVal) : Option JVal :=
  match dumps x with
  | .ok s => jsonParseStr s
  | .error _ => none

/-- Plain value whose mapping key is a double-quote character: the
multi-line layout interpolates the key raw via the f-string, so the
rendering `"""` breaks out of the string literal and is no longer
JSON. -/
def c1ex : JVal := jdict [(['"'], jlist [jlist [jint 0]])]

/-- Witness value for the corrected round-trip: a mapping holding a
nested list, a string and a negative integer under clean keys. -/
def c1w : JVal :=
  jdict [("a".data, jlist [jlist [jint 1, jint 2], jstr "x".data]),
         ("b".data, jint (-5))]

/-- Claim C1, counterexample: the round trip does not hold for every
plain tree — `c1ex` is built only from integers, lists and a
string-keyed mapping, yet parsing the text `dumps` produces for it
fails outright, because the layout's f-string interpolates the quote
character of its key unescaped. -/
theorem c1_counterexample : isPlain c1ex = true ∧ roundTrip c1ex = none :=
  ⟨rfl, rfl⟩

/-- Claim C1 (corrected): round-trip on plain values with clean mapping
keys.  For every tree built only from integers, floats, strings,
booleans, null, lists and string-keyed mappings all of whose keys are
free of quotes, backslashes and control characters, `dumps` succeeds
and a standard JSON parse of its text returns a value structurally
equal to the original, with mapping key order and sequence order
preserved. -/
theorem c1_round_trip (v : JVal) (hp : isPlain v = true) (hk : keysClean v = true) :
    ∃ s, dumps v = .ok s ∧ jsonParseStr s = some v := by
  obtain ⟨out, hout⟩ := _j_ok_of_plain v [] false hp
  refine ⟨String.mk out, ?_, ?_⟩
  · rw [dumps, hout]
    rfl
  · have hfuel : needV v ≤ out.length + 1 := needV_le_j v [] false out hout
    have h := parseValue_layout v [] false
      (fun c hc => absurd hc (List.not_mem_nil c)) hp hk out hout
      (out.length + 1) [] hfuel rfl
    rw [List.append_nil] at h
    rw [jsonParseStr, show (String.mk out).data = out from rfl, jsonParse, h]
    dsimp only
    rw [if_pos (show skipWs [] = [] from rfl)]

/-- Claim C1, witness: the corrected round trip at a concrete mapping
with a nested list, a string and a negative integer. -/
theorem c1_witness :
    isPlain c1w = true ∧ keysClean c1w = true ∧
    ∃ s, dumps c1w = .ok s ∧ jsonParseStr s = some c1w :=
  ⟨rfl, rfl, c1_round_trip c1w rfl rfl⟩
